import Mathlib

set_option linter.all false

/-!
Shallow embedding of the terraform-registry-builder core: the artifact name
parser and path derivers (internal/provider/provider.go), the artifact
packager (file/file.go), the versions index manager (file, ReadVersionsIndex /
AddVersion / WriteVersionsIndex), the checksum and signature pipeline
(file, WriteSHA256SumsFile / SignFile / WriteDownloadIndex) and the build
orchestrator (builder, Build / processDirectory / processProviderFile in the
gated pipeline variant).  Machine-level collaborators are made explicit:
the destination filesystem is a map from relative paths to structured file
data (JSON and zip serialization is deterministic, so file equality models
byte identity), the SHA-256 digest is an abstract deterministic function of
the file data, and the GPG signer is a record of possibly failing operations.
-/

namespace TRB

/-- Parsed information from a provider file name
(internal/provider/provider.go, ProviderInfo). -/
structure ProviderInfo where
  type : String
  version : String
  os : String
  arch : String
  ext : String
deriving DecidableEq, Repr

/-- Model of Go filepath.Base for slash-separated paths: an empty path gives
a dot, a path of only slashes gives a slash, otherwise trailing slashes are
removed and the last slash-separated component is returned. -/
def filepathBase (s : List Char) : List Char :=
  if s.isEmpty then ['.']
  else
    let t := s.reverse.dropWhile (· == '/')
    if t.isEmpty then ['/']
    else (t.takeWhile (· != '/')).reverse

/-- Tail of providerRegex after the type component: an underscore, the letter v,
then VERSION (one or more non-underscore), an underscore, OS (one or more
non-underscore), an underscore, ARCH (one or more non-dot), then an optional
suffix that is either .exe (captured as the native extension) or .zip
(not captured).  The greedy character classes are forced to the maximal runs
because each class excludes the delimiter that follows it. -/
def parseTail : List Char → Option (List Char × List Char × List Char × List Char)
  | '_' :: 'v' :: rest =>
    let ver := rest.takeWhile (· != '_')
    match rest.dropWhile (· != '_') with
    | '_' :: r2 =>
      let os := r2.takeWhile (· != '_')
      match r2.dropWhile (· != '_') with
      | '_' :: r4 =>
        let arch := r4.takeWhile (· != '.')
        if ver.isEmpty || os.isEmpty || arch.isEmpty then none
        else
          match r4.dropWhile (· != '.') with
          | [] => some (ver, os, arch, [])
          | ['.', 'e', 'x', 'e'] => some (ver, os, arch, ['.', 'e', 'x', 'e'])
          | ['.', 'z', 'i', 'p'] => some (ver, os, arch, [])
          | _ => none
      | _ => none
    | _ => none
  | _ => none

/-- One backtracking stop of the type search: the accumulated type candidate
must be nonempty and the remaining characters must match the regex tail. -/
def typeHere (acc : List Char) (cs : List Char) : Option ProviderInfo :=
  if acc.isEmpty then none
  else (parseTail cs).map fun r =>
    ⟨acc.asString, r.1.asString, r.2.1.asString, r.2.2.1.asString, r.2.2.2.asString⟩

/-- Backtracking search for the type component of providerRegex.  The type
class is one or more non-dash characters and is greedy, so longer candidates
are tried first, mirroring Go regexp leftmost-first submatch semantics. -/
def parseWithType (acc : List Char) : List Char → Option ProviderInfo
  | [] => typeHere acc []
  | c :: rest =>
    if c = '-' then typeHere acc (c :: rest)
    else
      match parseWithType (acc ++ [c]) rest with
      | some r => some r
      | none => typeHere acc (c :: rest)

/-- Matches a literal at the start of the character list, returning the
remainder on success. -/
def dropLiteral : List Char → List Char → Option (List Char)
  | [], cs => some cs
  | _ :: _, [] => none
  | p :: ps, c :: cs => if c = p then dropLiteral ps cs else none

/-- The fixed literal that starts every provider file name. -/
def providerNameStart : List Char := "terraform-provider-".data

/-- ParseProviderFileName from internal/provider/provider.go: takes the base
name of the path and matches it against providerRegex.  Returns none exactly
where the Go function returns an invalid-name error, and a fully populated
ProviderInfo otherwise (no partial result is representable). -/
def ParseProviderFileName (filename : String) : Option ProviderInfo :=
  match dropLiteral providerNameStart (filepathBase filename.data) with
  | some rest => parseWithType [] rest
  | none => none

/-- TargetVersionsIndexPath from provider.go. -/
def TargetVersionsIndexPath (p : ProviderInfo) : String :=
  p.type ++ "/versions/index.json"

/-- TargetDownloadPath from provider.go. -/
def TargetDownloadPath (p : ProviderInfo) : String :=
  p.type ++ "/" ++ p.version ++ "/download/" ++ p.os ++ "/" ++ p.arch

/-- TargetZipFileName from provider.go: the canonical archive file name. -/
def TargetZipFileName (p : ProviderInfo) : String :=
  "terraform-provider-" ++ p.type ++ "_v" ++ p.version ++ "_" ++ p.os ++ "_" ++ p.arch ++ ".zip"

/-- TargetZipPath from provider.go. -/
def TargetZipPath (p : ProviderInfo) : String :=
  TargetDownloadPath p ++ "/" ++ TargetZipFileName p

/-- TargetSHASumsFileName from provider.go. -/
def TargetSHASumsFileName (p : ProviderInfo) : String :=
  "terraform-provider-" ++ p.type ++ "_v" ++ p.version ++ "_" ++ p.os ++ "_" ++ p.arch ++ "_SHA256SUMS"

/-- TargetSHASumsPath from provider.go. -/
def TargetSHASumsPath (p : ProviderInfo) : String :=
  TargetDownloadPath p ++ "/" ++ TargetSHASumsFileName p

/-- TargetSigFileName from provider.go. -/
def TargetSigFileName (p : ProviderInfo) : String :=
  TargetSHASumsFileName p ++ ".sig"

/-- TargetSigPath from provider.go. -/
def TargetSigPath (p : ProviderInfo) : String :=
  TargetDownloadPath p ++ "/" ++ TargetSigFileName p

/-- TargetDownloadIndexPath from provider.go. -/
def TargetDownloadIndexPath (p : ProviderInfo) : String :=
  TargetDownloadPath p ++ "/index.json"

/-- InnerZipFileName from provider.go: the file name used inside the archive,
deliberately omitting the OS and architecture. -/
def InnerZipFileName (p : ProviderInfo) : String :=
  "terraform-provider-" ++ p.type ++ "_v" ++ p.version ++ p.ext

/-- IsZipFile from provider.go: whether the original file is a zip file. -/
def IsZipFile (filename : String) : Bool :=
  ".zip".data.isSuffixOf filename.data

/-- MS-DOS date and time pair as stored in a zip file header. -/
structure DosTime where
  date : Nat
  time : Nat
deriving DecidableEq, Repr

/-- timeToMsDosTime from Go archive/zip: the two 16-bit header fields computed
from the calendar components, with Go's conversion to uint16 (two's complement
wrap, modelled by the Euclidean remainder by 2 to the 16). -/
def timeToMsDosTime (year month day hour minute second : Int) : DosTime :=
  ⟨((day + month * 32 + (year - 1980) * 512).emod 65536).toNat,
   ((second / 2 + minute * 32 + hour * 2048).emod 65536).toNat⟩

/-- msDosTimeToTime from Go archive/zip: decodes the header fields back to
calendar components (year, month, day, hour, minute, second), interpreted
in UTC when the archive is read back. -/
def msDosTimeToTime (t : DosTime) : Int × Nat × Nat × Nat × Nat × Nat :=
  (Int.ofNat (t.date / 512) + 1980, t.date / 32 % 16, t.date % 32,
   t.time / 2048, t.time / 32 % 64, t.time % 32 * 2)

/-- The MS-DOS encoding of the Go zero time value that CreateZipFromBinary
stores via SetModTime: January 1 of year 1, midnight. -/
def goZeroTimeDos : DosTime := timeToMsDosTime 1 1 1 0 0 0

/-- One entry of a produced zip archive: the header name, the Unix permission
bits set by SetMode, the MS-DOS timestamp stored by SetModTime, and the
entry's bytes. -/
structure ZipEntry where
  name : String
  mode : Nat
  modTime : DosTime
  content : List Nat
deriving DecidableEq, Repr

/-- CreateZipFromBinary from file/file.go, at the level of the archive entries
it produces.  The Go function reads only the bytes of the source file; srcMode
and srcModTime are the source file's permission bits and modification time,
which the code never consults, so they are unused here.  The single entry's
header carries the inner name from InnerZipFileName, fixed mode 0755 and the
MS-DOS encoding of the Go zero time; parsing the binary path can fail, in
which case no archive is produced. -/
def CreateZipFromBinary (binaryPath : String) (content : List Nat)
    (srcMode : Nat) (srcModTime : Int) : Except String (List ZipEntry) :=
  match ParseProviderFileName binaryPath with
  | none => .error ("failed to parse provider file name: " ++ binaryPath)
  | some info => .ok [⟨InnerZipFileName info, 0o755, goZeroTimeDos, content⟩]

/-- Platform entry of the versions index (file, Platform). -/
structure Platform where
  os : String
  arch : String
deriving DecidableEq, Repr

/-- Version entry of the versions index (file, VersionInfo). -/
structure VersionInfo where
  version : String
  protocols : List String
  platforms : List Platform
deriving DecidableEq, Repr

/-- The per-type versions index (file, VersionsIndex). -/
structure VersionsIndex where
  id : String
  versions : List VersionInfo
  warnings : List String
deriving DecidableEq, Repr

/-- Lexicographic strict order on character lists: the order Go's built-in
string comparison computes (byte-wise on UTF-8, which coincides with
code-point order). -/
def charListLt : List Char → List Char → Bool
  | [], [] => false
  | [], _ :: _ => true
  | _ :: _, [] => false
  | a :: as, b :: bs => if a < b then true else if b < a then false else charListLt as bs

/-- Go's less-than on strings. -/
def versionLt (a b : String) : Bool := charListLt a.data b.data

/-- Insertion step of the descending sort performed at the end of AddVersion. -/
def insertVersionDesc (v : VersionInfo) : List VersionInfo → List VersionInfo
  | [] => [v]
  | e :: es =>
    if versionLt e.version v.version then v :: e :: es else e :: insertVersionDesc v es

/-- The sort performed at the end of AddVersion: sort.Slice with the
greater-than comparison on version strings, that is descending lexicographic
order.  The Go sort is unspecified only between entries with equal version
strings, which the index invariant rules out; this model is the stable
realization. -/
def sortVersionsDesc : List VersionInfo → List VersionInfo
  | [] => []
  | e :: es => insertVersionDesc e (sortVersionsDesc es)

/-- Update applied by AddVersion to the first entry carrying the given
version: append the platform pair only if it is absent. -/
def updateFirstVersion (version os arch : String) : List VersionInfo → List VersionInfo
  | [] => []
  | e :: es =>
    if e.version = version then
      (if e.platforms.any fun p => decide (p.os = os ∧ p.arch = arch) then e
       else { e with platforms := e.platforms ++ [⟨os, arch⟩] }) :: es
    else e :: updateFirstVersion version os arch es

/-- AddVersion from the versions index manager: appends a new version entry
with the fixed protocol list and a single platform if the version is absent,
otherwise adds the platform pair to the first matching entry when absent,
then re-sorts all entries in descending order of version string. -/
def AddVersion (vi : VersionsIndex) (version os arch : String) : VersionsIndex :=
  let versions :=
    if vi.versions.any fun e => decide (e.version = version) then
      updateFirstVersion version os arch vi.versions
    else
      vi.versions ++ [⟨version, ["6.0"], [⟨os, arch⟩]⟩]
  { vi with versions := sortVersionsDesc versions }

/-- The idempotence gate check of processProviderFile: scan for the first
entry with this version (the Go loop breaks at the first match) and check
whether the platform pair is present in it. -/
def versionPlatformExists (vi : VersionsIndex) (version os arch : String) : Bool :=
  match vi.versions.find? fun e => decide (e.version = version) with
  | some e => e.platforms.any fun p => decide (p.os = os ∧ p.arch = arch)
  | none => false

/-- A GPG public key as embedded in the download manifest. -/
structure GPGPublicKey where
  keyId : String
  asciiArmor : String
deriving DecidableEq, Repr

/-- DownloadIndex from file: the per-platform download manifest. -/
structure DownloadIndex where
  protocols : List String
  os : String
  arch : String
  filename : String
  downloadURL : String
  shasumsURL : String
  shasumsSignatureURL : String
  shasum : String
  signingKeys : List GPGPublicKey
deriving DecidableEq, Repr

/-- Contents of one destination file, abstracted over serialization: zip
archives are their entry lists, the versions index file its parsed value
(raw bytes at the index path model a file that is not a parseable index,
with the empty byte list modelling an empty file), checksum manifests their
text, signature files their bytes, download manifests their parsed value.
Serialization of each value to bytes is deterministic in the Go code, so
equality of FileData models byte identity of the written files. -/
inductive FileData where
  | rawBytes (bytes : List Nat)
  | zipArchive (entries : List ZipEntry)
  | versionsIndexFile (idx : VersionsIndex)
  | shaSums (text : String)
  | signatureBytes (bytes : List Nat)
  | downloadIndexFile (d : DownloadIndex)
deriving DecidableEq, Repr

/-- The destination file tree: a map from dst-relative paths to file data. -/
def Fs : Type := String → Option FileData

/-- Write one file of the destination tree. -/
def fsWrite (fs : Fs) (path : String) (d : FileData) : Fs :=
  fun q => if q = path then some d else fs q

/-- ReadVersionsIndex from the versions index manager, over the modelled
filesystem: a missing file yields a fresh empty index with the given id, an
existing empty file yields the same, an existing non-empty file that is not
a parseable versions index yields an error with no index, and a parseable
file yields its stored value (whose id comes from the file, not the
argument). -/
def ReadVersionsIndex (fs : Fs) (path : String) (id : String) :
    Except String VersionsIndex :=
  match fs path with
  | none => .ok ⟨id, [], []⟩
  | some (.rawBytes []) => .ok ⟨id, [], []⟩
  | some (.versionsIndexFile idx) => .ok idx
  | some _ => .error ("failed to parse versions index file: " ++ path)

/-- The GPG signer collaborator: GetGPGPrivateKey yields the key identifier
or fails, GetPublicKey yields the armored public key or fails, and detached
signing of the manifest text yields signature bytes or fails.  Within one
run the environment is fixed, so all three are deterministic. -/
structure Signer where
  keyResult : Except String String
  pubResult : Except String String
  sign : String → Except String (List Nat)

/-- Configuration of a build run: the content digest function (SHA-256 of the
serialized file, deterministic in the file data) and the signer. -/
structure BuildConfig where
  hash : FileData → String
  signer : Signer

/-- TrimSuffix of the archive extension, as used by WriteDownloadIndex. -/
def trimSuffixZip (s : String) : String :=
  if ".zip".data.isSuffixOf s.data then (s.data.take (s.data.length - 4)).asString else s

/-- Go strings.Split on the single-character separator of WriteDownloadIndex:
every maximal separator-free run becomes one part, with empty parts kept
around adjacent separators and at the ends. -/
def splitUnderscore : List Char → List (List Char)
  | [] => [[]]
  | c :: cs =>
    match splitUnderscore cs with
    | [] => [[c]]
    | h :: t => if c = '_' then [] :: h :: t else (c :: h) :: t

/-- The underscore split of WriteDownloadIndex applied to the archive file
name: strings.Split on the single-character separator, then the
second-to-last part is the os and the last part with the archive extension
trimmed is the arch; fewer than two parts is an error. -/
def deriveOsArch (zipFileName : String) : Except String (String × String) :=
  let parts := (splitUnderscore zipFileName.data).map List.asString
  if h : parts.length < 2 then .error ("invalid zip file name format: " ++ zipFileName)
  else .ok (parts.get ⟨parts.length - 2, by omega⟩,
            trimSuffixZip (parts.get ⟨parts.length - 1, by omega⟩))

/-- One write effect of processProviderFile, recorded in the order performed. -/
inductive Effect where
  | writeZip (path : String)
  | writeVersionsIndex (path : String)
  | writeShaSums (path : String)
  | writeSignature (path : String)
  | writeDownloadIndex (path : String)
deriving DecidableEq, Repr

/-- Result of processing one provider file: the Go error (none on success or
skip), whether the idempotence gate skipped the file, the filesystem after
the writes that happened, and the trace of those writes in order. -/
structure ProcResult where
  err : Option String
  skipped : Bool
  fs : Fs
  trace : List Effect

/-- The packaged archive written by the gate-passed pipeline: a source zip is
copied byte for byte, a raw binary is wrapped in a one-entry archive (the
wrapping reuses the parse of the same path that already succeeded). -/
def zipDataOf (filePath : String) (content : List Nat) (info : ProviderInfo) : FileData :=
  if IsZipFile filePath then .rawBytes content
  else .zipArchive [⟨InnerZipFileName info, 0o755, goZeroTimeDos, content⟩]

/-- The checksum manifest text: digest of the archive just written, two
spaces, the archive file name (the base name of the archive path, which for
a slash-free parsed name is exactly TargetZipFileName), a newline. -/
def shaTextOf (cfg : BuildConfig) (filePath : String) (content : List Nat)
    (info : ProviderInfo) : String :=
  cfg.hash (zipDataOf filePath content info) ++ "  " ++ TargetZipFileName info ++ "\n"

/-- Destination filesystem after the packaging write. -/
def fs1Of (cfg : BuildConfig) (fs : Fs) (filePath : String) (content : List Nat)
    (info : ProviderInfo) : Fs :=
  fsWrite fs (TargetZipPath info) (zipDataOf filePath content info)

/-- Destination filesystem after packaging and the versions index merge. -/
def fs2Of (cfg : BuildConfig) (fs : Fs) (filePath : String) (content : List Nat)
    (info : ProviderInfo) (idx : VersionsIndex) : Fs :=
  fsWrite (fs1Of cfg fs filePath content info) (TargetVersionsIndexPath info)
    (.versionsIndexFile (AddVersion idx info.version info.os info.arch))

/-- Destination filesystem after packaging, index merge, and the checksum
manifest write. -/
def fs3Of (cfg : BuildConfig) (fs : Fs) (filePath : String) (content : List Nat)
    (info : ProviderInfo) (idx : VersionsIndex) : Fs :=
  fsWrite (fs2Of cfg fs filePath content info idx) (TargetSHASumsPath info)
    (.shaSums (shaTextOf cfg filePath content info))

/-- The gate-passed tail of processProviderFile: package the artifact, merge
and persist the versions index, write the checksum manifest, sign it, and
write the download manifest, stopping at the first signer failure with all
earlier writes kept.  The writes happen in exactly the recorded order. -/
def pipelineResult (cfg : BuildConfig) (fs : Fs) (filePath : String)
    (content : List Nat) (info : ProviderInfo) (idx : VersionsIndex) : ProcResult :=
  let fs3 := fs3Of cfg fs filePath content info idx
  let t3 : List Effect :=
    [.writeZip (TargetZipPath info), .writeVersionsIndex (TargetVersionsIndexPath info),
     .writeShaSums (TargetSHASumsPath info)]
  match cfg.signer.keyResult with
  | .error e => ⟨some ("failed to create signature file: " ++ e), false, fs3, t3⟩
  | .ok keyId =>
    match cfg.signer.sign (shaTextOf cfg filePath content info) with
    | .error e => ⟨some ("failed to create signature file: " ++ e), false, fs3, t3⟩
    | .ok sigBytes =>
      let fs4 := fsWrite fs3 (TargetSigPath info) (.signatureBytes sigBytes)
      let t4 := t3 ++ [.writeSignature (TargetSigPath info)]
      match cfg.signer.pubResult with
      | .error e =>
        ⟨some ("failed to create download index file: " ++ e), false, fs4, t4⟩
      | .ok pub =>
        match deriveOsArch (TargetZipFileName info) with
        | .error e =>
          ⟨some ("failed to create download index file: " ++ e), false, fs4, t4⟩
        | .ok oa =>
          let d : DownloadIndex :=
            ⟨["6.0"], oa.1, oa.2, TargetZipFileName info, TargetZipFileName info,
             TargetSHASumsFileName info, TargetSigFileName info,
             cfg.hash (zipDataOf filePath content info), [⟨keyId, pub⟩]⟩
          ⟨none, false,
           fsWrite fs4 (TargetDownloadIndexPath info) (.downloadIndexFile d),
           t4 ++ [.writeDownloadIndex (TargetDownloadIndexPath info)]⟩

/-- processProviderFile from the gated builder pipeline: parse the name, read
the destination type's versions index, skip with no writes if the (version,
os, arch) triple is already present (the idempotence gate), otherwise run
the packaging, merge, checksum, signature and download-manifest pipeline. -/
def processProviderFile (cfg : BuildConfig) (fs : Fs) (filePath : String)
    (content : List Nat) : ProcResult :=
  match ParseProviderFileName filePath with
  | none => ⟨some ("failed to parse provider file name " ++ filePath), false, fs, []⟩
  | some info =>
    match ReadVersionsIndex fs (TargetVersionsIndexPath info) info.type with
    | .error e => ⟨some ("failed to read versions index file: " ++ e), false, fs, []⟩
    | .ok idx =>
      if versionPlatformExists idx info.version info.os info.arch then
        ⟨none, true, fs, []⟩
      else
        pipelineResult cfg fs filePath content info idx

/-- Outcome of a whole build run. -/
structure BuildResult where
  err : Option String
  fs : Fs

/-- processDirectory's visit of the candidate files in walk order: each file
is processed in turn, and the first error aborts the walk immediately,
propagating up through the recursive directory traversal. -/
def runFiles (cfg : BuildConfig) (fs : Fs) : List (String × List Nat) → BuildResult
  | [] => ⟨none, fs⟩
  | (p, c) :: rest =>
    let r := processProviderFile cfg fs p c
    match r.err with
    | some e => ⟨some e, r.fs⟩
    | none => runFiles cfg r.fs rest

/-- One entry of the source tree: a file with its bytes, or a directory. -/
inductive SrcEntry where
  | file (name : String) (content : List Nat)
  | dir (name : String) (entries : List SrcEntry)

mutual

/-- The candidate files produced by processDirectory's depth-first walk, in
visit order, with their joined paths: a file whose base name starts with the
provider literal is a candidate; a directory is recursed into. -/
def flattenEntry (dirPath : String) : SrcEntry → List (String × List Nat)
  | .file n c =>
    if (dropLiteral providerNameStart n.data).isSome then [(dirPath ++ "/" ++ n, c)]
    else []
  | .dir n es => flattenEntries (dirPath ++ "/" ++ n) es

/-- Walk of a directory's entries in order. -/
def flattenEntries (dirPath : String) : List SrcEntry → List (String × List Nat)
  | [] => []
  | e :: es => flattenEntry dirPath e ++ flattenEntries dirPath es

end

/-- Build from the gated builder: walk the source tree rooted at srcDir and
process every candidate file against the destination filesystem. -/
def Build (cfg : BuildConfig) (fs : Fs) (srcDir : String)
    (entries : List SrcEntry) : BuildResult :=
  runFiles cfg fs (flattenEntries srcDir entries)

/-- WriteSHA256SumsFile from file, restricted to the manifest text it writes:
the digest of the archive, two literal spaces, the base name of the archive
path, and a newline. -/
def WriteSHA256SumsText (digest : String) (zipFilePath : String) : String :=
  digest ++ "  " ++ (filepathBase zipFilePath.data).asString ++ "\n"

/-- A component free of the delimiter characters of the provider file name
pattern (dash, underscore, dot) and of the path separator, and non-empty as
the ArtifactMetadata invariant requires. -/
def noDelim (s : String) : Prop :=
  s ≠ "" ∧ ∀ c ∈ s.data, c ≠ '-' ∧ c ≠ '_' ∧ c ≠ '.' ∧ c ≠ '/'

instance (s : String) : Decidable (noDelim s) := by
  unfold noDelim
  infer_instance

/-- The language of providerRegex, read off the pattern: the fixed literal,
a non-empty dash-free type, an underscore and the letter v, a non-empty
underscore-free version, an underscore, a non-empty underscore-free os, an
underscore, a non-empty dot-free arch, and an optional suffix that is either
the native-executable suffix or the archive suffix. -/
def MatchesProviderPattern (base : List Char) : Prop :=
  ∃ ty ver os arch suffix,
    ty ≠ [] ∧ '-' ∉ ty ∧ ver ≠ [] ∧ '_' ∉ ver ∧ os ≠ [] ∧ '_' ∉ os ∧
    arch ≠ [] ∧ '.' ∉ arch ∧
    (suffix = [] ∨ suffix = ['.', 'e', 'x', 'e'] ∨ suffix = ['.', 'z', 'i', 'p']) ∧
    base = providerNameStart ++ ty ++ '_' :: 'v' :: (ver ++ '_' :: (os ++ '_' :: (arch ++ suffix)))

/-- A file name combining the native-executable suffix with the archive
suffix, which the pattern rejects. -/
def exeZipName (ty ver os arch : String) : String :=
  "terraform-provider-" ++ ty ++ "_v" ++ ver ++ "_" ++ os ++ "_" ++ arch ++ ".exe.zip"

/-- The full effect sequence of one gate-passing, fully successful run of
processProviderFile, in order. -/
def fullTrace (info : ProviderInfo) : List Effect :=
  [.writeZip (TargetZipPath info),
   .writeVersionsIndex (TargetVersionsIndexPath info),
   .writeShaSums (TargetSHASumsPath info),
   .writeSignature (TargetSigPath info),
   .writeDownloadIndex (TargetDownloadIndexPath info)]

/-- The versions of an index are strictly descending in version string; this
is the data-model invariant (sorted, hence unique versions). -/
def strictlySorted (l : List VersionInfo) : Prop :=
  l.Pairwise fun x y => versionLt y.version x.version = true

/-- The versions of an index are weakly descending in version string. -/
def sortedDesc (l : List VersionInfo) : Prop :=
  l.Pairwise fun x y => versionLt x.version y.version = false

instance (l : List VersionInfo) : Decidable (strictlySorted l) := by
  unfold strictlySorted
  infer_instance

instance (l : List VersionInfo) : Decidable (sortedDesc l) := by
  unfold sortedDesc
  infer_instance

/-- Every versions index file stored in the destination tree satisfies the
index invariant. -/
def IndexWF (fs : Fs) : Prop :=
  ∀ p idx, fs p = some (.versionsIndexFile idx) → strictlySorted idx.versions

/-- The (version, os, arch) triple of this artifact is recorded in the
versions index file stored at its index path. -/
def TriplePresent (fs : Fs) (info : ProviderInfo) : Prop :=
  ∃ idx, fs (TargetVersionsIndexPath info) = some (.versionsIndexFile idx) ∧
    versionPlatformExists idx info.version info.os info.arch = true

/-- All four components of a parsed name are free of the path separator;
every ProviderInfo produced by the parser satisfies this, because it is cut
out of a base name. -/
def NoSlashInfo (info : ProviderInfo) : Prop :=
  (∀ c ∈ info.type.data, c ≠ '/') ∧ (∀ c ∈ info.version.data, c ≠ '/') ∧
  (∀ c ∈ info.os.data, c ≠ '/') ∧ (∀ c ∈ info.arch.data, c ≠ '/')

/-- The empty destination filesystem. -/
def fsEmpty : Fs := fun _ => none

/-- A concrete build configuration with an always-succeeding signer, for
witnesses. -/
def cfgDemo : BuildConfig :=
  ⟨fun _ => "deadbeef", ⟨.ok "KEYID", .ok "ARMOR", fun _ => .ok [7, 7]⟩⟩

/-- A concrete build configuration whose signer fails to sign, for
witnesses. -/
def cfgDemoBadSigner : BuildConfig :=
  ⟨fun _ => "deadbeef", ⟨.ok "KEYID", .ok "ARMOR", fun _ => .error "gpg: no key"⟩⟩

/-- A source tree whose first candidate has an unparseable name and whose
second candidate is well-formed. -/
def treeBadGood : List SrcEntry :=
  [.file "terraform-provider-bad" [1],
   .file "terraform-provider-good_v1.0.0_linux_amd64" [2]]

/-- A source tree with one well-formed binary candidate. -/
def treeOne : List SrcEntry :=
  [.file "terraform-provider-test_v1.0.0_linux_amd64" [1, 2]]

/-- The same tree with the candidate's bytes changed but its name kept. -/
def treeOneChanged : List SrcEntry :=
  [.file "terraform-provider-test_v1.0.0_linux_amd64" [3, 4, 5]]

theorem takeWhile_app {α : Type} (p : α → Bool) (l r : List α)
    (h : ∀ c ∈ l, p c = true) (h2 : ∀ c, r.head? = some c → p c = false) :
    (l ++ r).takeWhile p = l ∧ (l ++ r).dropWhile p = r := by
  induction l with
  | nil =>
    cases r with
    | nil => simp
    | cons c cs =>
      have hc := h2 c rfl
      simp [List.takeWhile_cons, List.dropWhile_cons, hc]
  | cons a l ih =>
    have ha : p a = true := h a (by simp)
    have ih' := ih fun c hc => h c (by simp [hc])
    simp [List.takeWhile_cons, List.dropWhile_cons, ha, ih'.1, ih'.2]

theorem parseTail_head_ne (c : Char) (cs : List Char) (h : c ≠ '_') :
    parseTail (c :: cs) = none := by
  rw [parseTail.eq_def]
  split
  · rename_i rest heq
    simp only [List.cons.injEq] at heq
    exact absurd heq.1 h
  · rfl

theorem parseTail_second_ne (c : Char) (cs : List Char) (h : c ≠ 'v') :
    parseTail ('_' :: c :: cs) = none := by
  rw [parseTail.eq_def]
  split
  · rename_i rest heq
    simp only [List.cons.injEq] at heq
    exact absurd heq.2.1 h
  · rfl

theorem parseTail_split (ver os arch suffix : List Char)
    (hver : '_' ∉ ver) (hos : '_' ∉ os) (harch : '.' ∉ arch)
    (hsuf : suffix = [] ∨ ∃ t, suffix = '.' :: t) :
    parseTail ('_' :: 'v' :: (ver ++ '_' :: (os ++ '_' :: (arch ++ suffix)))) =
      if ver.isEmpty || os.isEmpty || arch.isEmpty then none
      else
        match suffix with
        | [] => some (ver, os, arch, [])
        | ['.', 'e', 'x', 'e'] => some (ver, os, arch, ['.', 'e', 'x', 'e'])
        | ['.', 'z', 'i', 'p'] => some (ver, os, arch, [])
        | _ => none := by
  have pv : ∀ c ∈ ver, (c != '_') = true := by
    intro c hc
    simp only [bne_iff_ne, ne_eq]
    exact fun e => hver (e ▸ hc)
  have po : ∀ c ∈ os, (c != '_') = true := by
    intro c hc
    simp only [bne_iff_ne, ne_eq]
    exact fun e => hos (e ▸ hc)
  have pa : ∀ c ∈ arch, (c != '.') = true := by
    intro c hc
    simp only [bne_iff_ne, ne_eq]
    exact fun e => harch (e ▸ hc)
  have h1 := takeWhile_app (· != '_') ver ('_' :: (os ++ '_' :: (arch ++ suffix))) pv
    (by intro c hc; simp only [List.head?_cons, Option.some.injEq] at hc; subst hc; simp)
  have h2 := takeWhile_app (· != '_') os ('_' :: (arch ++ suffix)) po
    (by intro c hc; simp only [List.head?_cons, Option.some.injEq] at hc; subst hc; simp)
  have h3 := takeWhile_app (· != '.') arch suffix pa
    (by
      intro c hc
      rcases hsuf with h | ⟨t, ht⟩
      · subst h; simp at hc
      · subst ht
        simp only [List.head?_cons, Option.some.injEq] at hc
        subst hc; simp)
  simp only [parseTail, h1.1, h1.2, h2.1, h2.2, h3.1, h3.2]

theorem typeHere_none_of_parseTail (acc cs : List Char) (h : parseTail cs = none) :
    typeHere acc cs = none := by
  simp [typeHere, h]

theorem parseTail_eat_os (os arch suffix : List Char)
    (hos : '_' ∉ os) (harch : '_' ∉ arch) (hsuf : '_' ∉ suffix) :
    parseTail ('_' :: (os ++ '_' :: (arch ++ suffix))) = none := by
  cases os with
  | nil => simpa using parseTail_second_ne '_' (arch ++ suffix) (by decide)
  | cons c os' =>
    by_cases hc : c = 'v'
    · subst hc
      have pv : ∀ x ∈ os', (x != '_') = true := by
        intro x hx
        simp only [bne_iff_ne, ne_eq]
        exact fun e => hos (e ▸ List.mem_cons_of_mem _ hx)
      have h1 := takeWhile_app (· != '_') os' ('_' :: (arch ++ suffix)) pv
        (by intro x hx; simp only [List.head?_cons, Option.some.injEq] at hx; subst hx; simp)
      have pall : ∀ x ∈ arch ++ suffix, (x != '_') = true := by
        intro x hx
        simp only [bne_iff_ne, ne_eq]
        rcases List.mem_append.mp hx with h | h
        · exact fun e => harch (e ▸ h)
        · exact fun e => hsuf (e ▸ h)
      have h2 := takeWhile_app (· != '_') (arch ++ suffix) [] pall (by intro x hx; simp at hx)
      simp only [List.append_nil] at h2
      simp only [List.cons_append, parseTail, h1.1, h1.2, h2.1, h2.2]
    · simpa using parseTail_second_ne c (os' ++ '_' :: (arch ++ suffix)) hc

theorem parseTail_eat_arch (arch suffix : List Char)
    (harch : '_' ∉ arch) (hsuf : '_' ∉ suffix)
    (hshape : suffix = [] ∨ ∃ t, suffix = '.' :: t) :
    parseTail ('_' :: (arch ++ suffix)) = none := by
  cases arch with
  | nil =>
    rcases hshape with h | ⟨t, ht⟩
    · subst h; rfl
    · subst ht; simpa using parseTail_second_ne '.' t (by decide)
  | cons c a'  =>
    by_cases hc : c = 'v'
    · subst hc
      have pall : ∀ x ∈ a' ++ suffix, (x != '_') = true := by
        intro x hx
        simp only [bne_iff_ne, ne_eq]
        rcases List.mem_append.mp hx with h | h
        · exact fun e => harch (e ▸ List.mem_cons_of_mem _ h)
        · exact fun e => hsuf (e ▸ h)
      have h1 := takeWhile_app (· != '_') (a' ++ suffix) [] pall (by intro x hx; simp at hx)
      simp only [List.append_nil] at h1
      simp only [List.cons_append, parseTail, h1.1, h1.2]
    · simpa using parseTail_second_ne c (a' ++ suffix) hc

theorem parseWithType_match (acc : List Char) (c : Char) (rest : List Char) (hc : c ≠ '-') :
    parseWithType acc (c :: rest) =
      match parseWithType (acc ++ [c]) rest with
      | some r => some r
      | none => typeHere acc (c :: rest) := by
  rw [parseWithType, if_neg hc]

theorem parseWithType_through (l : List Char) (acc r : List Char)
    (h : ∀ c ∈ l, c ≠ '-' ∧ c ≠ '_') :
    parseWithType acc (l ++ r) = parseWithType (acc ++ l) r := by
  induction l generalizing acc with
  | nil => simp
  | cons c l ih =>
    have hc := h c (List.mem_cons_self _ _)
    have hth : typeHere acc (c :: (l ++ r)) = none :=
      typeHere_none_of_parseTail _ _ (parseTail_head_ne c _ hc.2)
    rw [List.cons_append, parseWithType_match acc c (l ++ r) hc.1]
    have e1 : parseWithType (acc ++ [c]) (l ++ r) = parseWithType (acc ++ c :: l) r := by
      rw [ih (acc ++ [c]) fun x hx => h x (List.mem_cons_of_mem _ hx)]
      simp
    rw [e1]
    cases parseWithType (acc ++ c :: l) r with
    | some v => rfl
    | none => exact hth

theorem pwt_none_arch (A suffix : List Char)
    (hA : ∀ c ∈ A, c ≠ '-' ∧ c ≠ '_')
    (hs : ∀ c ∈ suffix, c ≠ '-' ∧ c ≠ '_') :
    ∀ acc, parseWithType acc (A ++ suffix) = none := by
  intro acc
  have h := parseWithType_through (A ++ suffix) acc []
    (by
      intro c hc
      rcases List.mem_append.mp hc with h | h
      · exact hA c h
      · exact hs c h)
  rw [List.append_nil] at h
  rw [h, parseWithType]
  exact typeHere_none_of_parseTail _ _ rfl

theorem pwt_none_uarch (A suffix : List Char)
    (hA : ∀ c ∈ A, c ≠ '-' ∧ c ≠ '_')
    (hs : ∀ c ∈ suffix, c ≠ '-' ∧ c ≠ '_')
    (hshape : suffix = [] ∨ ∃ t, suffix = '.' :: t) :
    ∀ acc, parseWithType acc ('_' :: (A ++ suffix)) = none := by
  intro acc
  rw [parseWithType_match acc '_' _ (by decide)]
  rw [pwt_none_arch A suffix hA hs (acc ++ ['_'])]
  exact typeHere_none_of_parseTail _ _
    (parseTail_eat_arch A suffix (fun h => (hA '_' h).2 rfl) (fun h => (hs '_' h).2 rfl) hshape)

theorem pwt_none_os (O A suffix : List Char)
    (hO : ∀ c ∈ O, c ≠ '-' ∧ c ≠ '_')
    (hA : ∀ c ∈ A, c ≠ '-' ∧ c ≠ '_')
    (hs : ∀ c ∈ suffix, c ≠ '-' ∧ c ≠ '_')
    (hshape : suffix = [] ∨ ∃ t, suffix = '.' :: t) :
    ∀ acc, parseWithType acc (O ++ '_' :: (A ++ suffix)) = none := by
  intro acc
  rw [parseWithType_through O acc _ hO]
  exact pwt_none_uarch A suffix hA hs hshape _

theorem pwt_none_uos (O A suffix : List Char)
    (hO : ∀ c ∈ O, c ≠ '-' ∧ c ≠ '_')
    (hA : ∀ c ∈ A, c ≠ '-' ∧ c ≠ '_')
    (hs : ∀ c ∈ suffix, c ≠ '-' ∧ c ≠ '_')
    (hshape : suffix = [] ∨ ∃ t, suffix = '.' :: t) :
    ∀ acc, parseWithType acc ('_' :: (O ++ '_' :: (A ++ suffix))) = none := by
  intro acc
  rw [parseWithType_match acc '_' _ (by decide)]
  rw [pwt_none_os O A suffix hO hA hs hshape (acc ++ ['_'])]
  exact typeHere_none_of_parseTail _ _
    (parseTail_eat_os O A suffix (fun h => (hO '_' h).2 rfl) (fun h => (hA '_' h).2 rfl)
      (fun h => (hs '_' h).2 rfl))

theorem pwt_none_v (V O A suffix : List Char)
    (hV : ∀ c ∈ V, c ≠ '-' ∧ c ≠ '_')
    (hO : ∀ c ∈ O, c ≠ '-' ∧ c ≠ '_')
    (hA : ∀ c ∈ A, c ≠ '-' ∧ c ≠ '_')
    (hs : ∀ c ∈ suffix, c ≠ '-' ∧ c ≠ '_')
    (hshape : suffix = [] ∨ ∃ t, suffix = '.' :: t) :
    ∀ acc, parseWithType acc ('v' :: (V ++ '_' :: (O ++ '_' :: (A ++ suffix)))) = none := by
  intro acc
  have e : 'v' :: (V ++ '_' :: (O ++ '_' :: (A ++ suffix))) =
      ('v' :: V) ++ '_' :: (O ++ '_' :: (A ++ suffix)) := by simp
  rw [e, parseWithType_through ('v' :: V) acc _
    (by
      intro c hc
      rcases List.mem_cons.mp hc with h | h
      · subst h; exact ⟨by decide, by decide⟩
      · exact hV c h)]
  exact pwt_none_uos O A suffix hO hA hs hshape _

theorem parseWithType_canonical (T V O A suffix : List Char)
    (hT : ∀ c ∈ T, c ≠ '-' ∧ c ≠ '_')
    (hV : ∀ c ∈ V, c ≠ '-' ∧ c ≠ '_')
    (hO : ∀ c ∈ O, c ≠ '-' ∧ c ≠ '_')
    (hA : ∀ c ∈ A, c ≠ '-' ∧ c ≠ '_')
    (hs : ∀ c ∈ suffix, c ≠ '-' ∧ c ≠ '_')
    (hshape : suffix = [] ∨ ∃ t, suffix = '.' :: t) :
    parseWithType [] (T ++ '_' :: 'v' :: (V ++ '_' :: (O ++ '_' :: (A ++ suffix)))) =
      typeHere T ('_' :: 'v' :: (V ++ '_' :: (O ++ '_' :: (A ++ suffix)))) := by
  rw [parseWithType_through T [] _ hT, List.nil_append]
  rw [parseWithType_match T '_' _ (by decide)]
  rw [pwt_none_v V O A suffix hV hO hA hs hshape (T ++ ['_'])]

theorem string_data_append (a b : String) : (a ++ b).data = a.data ++ b.data := rfl

theorem data_asString (l : List Char) : l.asString.data = l := rfl

theorem asString_data (s : String) : s.data.asString = s := rfl

theorem string_data_ne_nil {s : String} (h : s ≠ "") : s.data ≠ [] := by
  intro e
  apply h
  cases s with
  | mk d =>
    cases e
    rfl

theorem filepathBase_no_slash (l : List Char) (hne : l ≠ []) (h : '/' ∉ l) :
    filepathBase l = l := by
  unfold filepathBase
  rw [if_neg (by simpa using hne)]
  have hrev : '/' ∉ l.reverse := by simpa using h
  have hd : l.reverse.dropWhile (· == '/') = l.reverse := by
    cases hr : l.reverse with
    | nil => simp
    | cons c cs =>
      rw [hr] at hrev
      have hcf : (c == '/') = false := by
        simp only [beq_eq_false_iff_ne, ne_eq]
        intro e
        exact hrev (e ▸ List.mem_cons_self _ _)
      simp [List.dropWhile_cons, hcf]
  simp only [hd]
  rw [if_neg (by simpa using hne)]
  have ht : l.reverse.takeWhile (· != '/') = l.reverse := by
    have := takeWhile_app (· != '/') l.reverse [] (by
      intro c hc
      simp only [bne_iff_ne, ne_eq]
      intro e
      exact hrev (e ▸ hc)) (by intro c hc; simp at hc)
    simpa using this.1
  rw [ht, List.reverse_reverse]

theorem dropLiteral_self (lit rest : List Char) : dropLiteral lit (lit ++ rest) = some rest := by
  induction lit with
  | nil => rfl
  | cons c l ih => simp [dropLiteral, ih]

theorem dropLiteral_sound (lit : List Char) : ∀ s rest, dropLiteral lit s = some rest →
    s = lit ++ rest := by
  induction lit with
  | nil =>
    intro s rest h
    simpa [dropLiteral] using h
  | cons c l ih =>
    intro s rest h
    cases s with
    | nil => simp [dropLiteral] at h
    | cons d s' =>
      by_cases hd : d = c
      · rw [dropLiteral, if_pos hd] at h
        subst hd
        rw [List.cons_append]
        exact congrArg _ (ih s' rest h)
      · rw [dropLiteral, if_neg hd] at h
        exact absurd h (by simp)

theorem parse_canonical (ty ver os arch : String) (suffix : List Char)
    (ht : noDelim ty) (hv : noDelim ver) (ho : noDelim os) (ha : noDelim arch)
    (hs : ∀ c ∈ suffix, c ≠ '-' ∧ c ≠ '_' ∧ c ≠ '/')
    (hshape : suffix = [] ∨ ∃ t, suffix = '.' :: t) :
    ParseProviderFileName
        ⟨providerNameStart ++ ty.data ++ '_' :: 'v' ::
          (ver.data ++ '_' :: (os.data ++ '_' :: (arch.data ++ suffix)))⟩ =
      (parseTail ('_' :: 'v' ::
          (ver.data ++ '_' :: (os.data ++ '_' :: (arch.data ++ suffix))))).map
        fun r => ⟨ty, r.1.asString, r.2.1.asString, r.2.2.1.asString, r.2.2.2.asString⟩ := by
  set tail := '_' :: 'v' :: (ver.data ++ '_' :: (os.data ++ '_' :: (arch.data ++ suffix))) with htail
  set L := providerNameStart ++ ty.data ++ tail with hL
  have hLdata : (String.mk L).data = L := rfl
  have hpn : ∀ c ∈ providerNameStart, c ≠ '/' := by decide
  have hns : ('/' : Char) ∉ L := by
    intro hmem
    rw [hL, htail] at hmem
    simp only [List.mem_append, List.mem_cons] at hmem
    rcases hmem with (h | h) | h | h | h | h | h | h | h | h
    · exact hpn _ h rfl
    · exact ((ht.2 _ h).2.2.2) rfl
    · exact absurd h (by decide)
    · exact absurd h (by decide)
    · exact ((hv.2 _ h).2.2.2) rfl
    · exact absurd h (by decide)
    · exact ((ho.2 _ h).2.2.2) rfl
    · exact absurd h (by decide)
    · exact ((ha.2 _ h).2.2.2) rfl
    · exact ((hs _ h).2.2) rfl
  have hLne : L ≠ [] := by
    rw [hL]
    simp [providerNameStart]
  rw [ParseProviderFileName, hLdata, filepathBase_no_slash L hLne hns]
  have hsplit : L = providerNameStart ++ (ty.data ++ tail) := by
    rw [hL, List.append_assoc]
  rw [hsplit, dropLiteral_self]
  have hmk : ∀ (s : String), (∀ c ∈ s.data, c ≠ '-' ∧ c ≠ '_' ∧ c ≠ '.' ∧ c ≠ '/') →
      ∀ c ∈ s.data, c ≠ '-' ∧ c ≠ '_' := by
    intro s hcond c hc
    exact ⟨(hcond c hc).1, (hcond c hc).2.1⟩
  have hsufw : ∀ c ∈ suffix, c ≠ '-' ∧ c ≠ '_' := fun c hc =>
    ⟨(hs c hc).1, (hs c hc).2.1⟩
  show parseWithType [] (ty.data ++ '_' :: 'v' ::
      (ver.data ++ '_' :: (os.data ++ '_' :: (arch.data ++ suffix)))) = _
  rw [parseWithType_canonical ty.data ver.data os.data arch.data suffix
    (hmk ty ht.2) (hmk ver hv.2) (hmk os ho.2) (hmk arch ha.2) hsufw hshape]
  rw [typeHere, if_neg (by simpa using string_data_ne_nil ht.1)]
  cases parseTail ('_' :: 'v' :: (ver.data ++ '_' :: (os.data ++ '_' :: (arch.data ++ suffix)))) with
  | none => rfl
  | some r => simp [asString_data]

/-- Claim C7: for any metadata whose components are non-empty (the
ArtifactMetadata invariant) and contain no delimiter character, deriving the
canonical archive file name and re-parsing it with the artifact name parser
yields exactly the original type, version, os and arch. -/
theorem c7_name_roundtrip (info : ProviderInfo)
    (ht : noDelim info.type) (hv : noDelim info.version)
    (ho : noDelim info.os) (ha : noDelim info.arch) :
    ParseProviderFileName (TargetZipFileName info) =
      some ⟨info.type, info.version, info.os, info.arch, ""⟩ := by
  have hd : (TargetZipFileName info).data =
      providerNameStart ++ info.type.data ++ '_' :: 'v' ::
        (info.version.data ++ '_' :: (info.os.data ++ '_' ::
          (info.arch.data ++ ".zip".data))) := by
    simp only [TargetZipFileName, string_data_append, List.append_assoc]
    rfl
  have hstep : TargetZipFileName info =
      ⟨providerNameStart ++ info.type.data ++ '_' :: 'v' ::
        (info.version.data ++ '_' :: (info.os.data ++ '_' ::
          (info.arch.data ++ ".zip".data)))⟩ := by
    conv_lhs => rw [show TargetZipFileName info = ⟨(TargetZipFileName info).data⟩ from rfl]
    rw [hd]
  rw [hstep, parse_canonical info.type info.version info.os info.arch ".zip".data ht hv ho ha
    (by decide) (Or.inr ⟨['z', 'i', 'p'], rfl⟩)]
  rw [parseTail_split info.version.data info.os.data info.arch.data ".zip".data
    (fun h => (hv.2 '_' h).2.1 rfl) (fun h => (ho.2 '_' h).2.1 rfl)
    (fun h => (ha.2 '.' h).2.2.1 rfl) (Or.inr ⟨['z', 'i', 'p'], rfl⟩)]
  have h1 : info.version.data.isEmpty = false := by
    simpa using string_data_ne_nil hv.1
  have h2 : info.os.data.isEmpty = false := by
    simpa using string_data_ne_nil ho.1
  have h3 : info.arch.data.isEmpty = false := by
    simpa using string_data_ne_nil ha.1
  rw [h1, h2, h3]
  simp [asString_data, show ([] : List Char).asString = "" from rfl]

theorem c7_name_roundtrip_witness :
    noDelim "aws" ∧
    ParseProviderFileName (TargetZipFileName ⟨"aws", "100", "linux", "amd64", ""⟩) =
      some ⟨"aws", "100", "linux", "amd64", ""⟩ :=
  ⟨by decide,
   c7_name_roundtrip ⟨"aws", "100", "linux", "amd64", ""⟩
     (by decide) (by decide) (by decide) (by decide)⟩

theorem mem_takeWhile {α : Type} (p : α → Bool) (l : List α) :
    ∀ x ∈ l.takeWhile p, p x = true := by
  induction l with
  | nil => simp
  | cons a l ih =>
    intro x hx
    rw [List.takeWhile_cons] at hx
    by_cases ha : p a = true
    · rw [if_pos ha] at hx
      rcases List.mem_cons.mp hx with h | h
      · exact h ▸ ha
      · exact ih x h
    · rw [if_neg ha] at hx
      simp at hx

theorem parseTail_sound (cs ver os arch ext : List Char)
    (h : parseTail cs = some (ver, os, arch, ext)) :
    ver ≠ [] ∧ '_' ∉ ver ∧ os ≠ [] ∧ '_' ∉ os ∧ arch ≠ [] ∧ '.' ∉ arch ∧
    ∃ suffix, cs = '_' :: 'v' :: (ver ++ '_' :: (os ++ '_' :: (arch ++ suffix))) ∧
      ((suffix = [] ∧ ext = []) ∨ (suffix = ['.', 'e', 'x', 'e'] ∧ ext = ['.', 'e', 'x', 'e']) ∨
       (suffix = ['.', 'z', 'i', 'p'] ∧ ext = [])) := by
  rw [parseTail.eq_def] at h
  split at h
  case _ rest =>
    split at h
    case _ r2 heq2 =>
      split at h
      case _ r4 heq3 =>
        have main : ∀ suffix : List Char, r4.dropWhile (· != '.') = suffix →
            rest.takeWhile (· != '_') = ver → r2.takeWhile (· != '_') = os →
            r4.takeWhile (· != '.') = arch →
            ver ≠ [] → os ≠ [] → arch ≠ [] →
            ∃ s, '_' :: 'v' :: rest =
              '_' :: 'v' :: (ver ++ '_' :: (os ++ '_' :: (arch ++ s))) ∧ s = suffix := by
          intro suffix heq4 hv ho ha _ _ _
          refine ⟨suffix, ?_, rfl⟩
          have e1 : rest = ver ++ '_' :: r2 := by
            rw [← hv]
            conv_lhs => rw [← List.takeWhile_append_dropWhile (p := (· != '_')) (l := rest)]
            rw [heq2]
          have e2 : r2 = os ++ '_' :: r4 := by
            rw [← ho]
            conv_lhs => rw [← List.takeWhile_append_dropWhile (p := (· != '_')) (l := r2)]
            rw [heq3]
          have e3 : r4 = arch ++ suffix := by
            rw [← ha, ← heq4]
            conv_lhs => rw [← List.takeWhile_append_dropWhile (p := (· != '.')) (l := r4)]
          rw [e1, e2, e3]
        have hnm1 : '_' ∉ rest.takeWhile (· != '_') := by
          intro hm
          have := mem_takeWhile (· != '_') rest '_' hm
          simp at this
        have hnm2 : '_' ∉ r2.takeWhile (· != '_') := by
          intro hm
          have := mem_takeWhile (· != '_') r2 '_' hm
          simp at this
        have hnm3 : '.' ∉ r4.takeWhile (· != '.') := by
          intro hm
          have := mem_takeWhile (· != '.') r4 '.' hm
          simp at this
        split at h
        case _ heq4 =>
          dsimp only at h
          split at h
          · exact absurd h (by simp)
          case _ hcond =>
            simp only [Bool.or_eq_true, List.isEmpty_iff, not_or] at hcond
            simp only [Option.some.injEq, Prod.mk.injEq] at h
            obtain ⟨hv, ho, ha, he⟩ := h
            obtain ⟨s, hcs, hs⟩ := main [] heq4 hv ho ha
              (hv ▸ hcond.1.1) (ho ▸ hcond.1.2) (ha ▸ hcond.2)
            exact ⟨hv ▸ hcond.1.1, hv ▸ hnm1, ho ▸ hcond.1.2, ho ▸ hnm2,
              ha ▸ hcond.2, ha ▸ hnm3, s, hcs, Or.inl ⟨hs, he.symm⟩⟩
        case _ heq4 =>
          dsimp only at h
          split at h
          · exact absurd h (by simp)
          case _ hcond =>
            simp only [Bool.or_eq_true, List.isEmpty_iff, not_or] at hcond
            simp only [Option.some.injEq, Prod.mk.injEq] at h
            obtain ⟨hv, ho, ha, he⟩ := h
            obtain ⟨s, hcs, hs⟩ := main ['.', 'e', 'x', 'e'] heq4 hv ho ha
              (hv ▸ hcond.1.1) (ho ▸ hcond.1.2) (ha ▸ hcond.2)
            exact ⟨hv ▸ hcond.1.1, hv ▸ hnm1, ho ▸ hcond.1.2, ho ▸ hnm2,
              ha ▸ hcond.2, ha ▸ hnm3, s, hcs, Or.inr (Or.inl ⟨hs, he.symm⟩)⟩
        case _ heq4 =>
          dsimp only at h
          split at h
          · exact absurd h (by simp)
          case _ hcond =>
            simp only [Bool.or_eq_true, List.isEmpty_iff, not_or] at hcond
            simp only [Option.some.injEq, Prod.mk.injEq] at h
            obtain ⟨hv, ho, ha, he⟩ := h
            obtain ⟨s, hcs, hs⟩ := main ['.', 'z', 'i', 'p'] heq4 hv ho ha
              (hv ▸ hcond.1.1) (ho ▸ hcond.1.2) (ha ▸ hcond.2)
            exact ⟨hv ▸ hcond.1.1, hv ▸ hnm1, ho ▸ hcond.1.2, ho ▸ hnm2,
              ha ▸ hcond.2, ha ▸ hnm3, s, hcs, Or.inr (Or.inr ⟨hs, he.symm⟩)⟩
        case _ =>
          dsimp only at h
          split at h
          · exact absurd h (by simp)
          · exact absurd h (by simp)
      · simp at h
    · simp at h
  · simp at h

theorem parseWithType_sound (cs : List Char) : ∀ acc info,
    parseWithType acc cs = some info →
    ∃ t rest, cs = t ++ rest ∧ '-' ∉ t ∧ typeHere (acc ++ t) rest = some info := by
  induction cs with
  | nil =>
    intro acc info h
    rw [parseWithType] at h
    exact ⟨[], [], by simp, by simp, by simpa using h⟩
  | cons c cs ih =>
    intro acc info h
    by_cases hc : c = '-'
    · rw [parseWithType, if_pos hc] at h
      exact ⟨[], c :: cs, by simp, by simp, by simpa using h⟩
    · rw [parseWithType_match acc c cs hc] at h
      cases hr : parseWithType (acc ++ [c]) cs with
      | some r =>
        rw [hr] at h
        obtain ⟨t, rest, hcs, hnd, hth⟩ := ih (acc ++ [c]) info (by rw [hr, ← h])
        refine ⟨c :: t, rest, by rw [hcs]; rfl, ?_, ?_⟩
        · intro hm
          rcases List.mem_cons.mp hm with hm | hm
          · exact hc hm.symm
          · exact hnd hm
        · rw [show acc ++ c :: t = (acc ++ [c]) ++ t by simp]
          exact hth
      | none =>
        rw [hr] at h
        exact ⟨[], c :: cs, by simp, by simp, by simpa using h⟩

/-- Claim C9: the artifact name parser returns an error with no metadata for
every file name whose base name is outside the pattern's language, and for
every canonical name that combines the native-executable suffix with the
archive suffix (a name ending in .exe.zip).  The first part is stated as
soundness: a successful parse forces the base name into the pattern's
language, so any name outside it is rejected; the second part rejects the
combined-suffix family outright.  No partial result is representable, since
the parser returns an Option of a fully populated record. -/
theorem c9_parser_rejects :
    (∀ s info, ParseProviderFileName s = some info →
      MatchesProviderPattern (filepathBase s.data)) ∧
    (∀ ty ver os arch, noDelim ty → noDelim ver → noDelim os → noDelim arch →
      ParseProviderFileName (exeZipName ty ver os arch) = none) := by
  constructor
  · intro s info h
    rw [ParseProviderFileName] at h
    cases hdl : dropLiteral providerNameStart (filepathBase s.data) with
    | none => rw [hdl] at h; simp at h
    | some rest =>
      rw [hdl] at h
      obtain ⟨t, rest', hcs, hnd, hth⟩ := parseWithType_sound rest [] info h
      rw [typeHere] at hth
      by_cases hemp : ([] ++ t : List Char).isEmpty
      · rw [if_pos hemp] at hth
        simp at hth
      · rw [if_neg hemp] at hth
        cases hpt : parseTail rest' with
        | none => rw [hpt] at hth; simp at hth
        | some quad =>
          rw [hpt] at hth
          obtain ⟨ver, os, arch, ext⟩ := quad
          obtain ⟨hv1, hv2, ho1, ho2, ha1, ha2, suffix, hrest', hsuf⟩ :=
            parseTail_sound rest' ver os arch ext hpt
          refine ⟨t, ver, os, arch, suffix, ?_, hnd, hv1, hv2, ho1, ho2, ha1, ha2, ?_, ?_⟩
          · intro e
            exact hemp (by simp [e])
          · rcases hsuf with ⟨h1, _⟩ | ⟨h1, _⟩ | ⟨h1, _⟩ <;> simp [h1]
          · rw [dropLiteral_sound providerNameStart _ rest hdl, hcs, hrest']
            simp
  · intro ty ver os arch ht hv ho ha
    have hd : (exeZipName ty ver os arch).data =
        providerNameStart ++ ty.data ++ '_' :: 'v' ::
          (ver.data ++ '_' :: (os.data ++ '_' :: (arch.data ++ ".exe.zip".data))) := by
      simp only [exeZipName, string_data_append, List.append_assoc]
      rfl
    have hstep : exeZipName ty ver os arch =
        ⟨providerNameStart ++ ty.data ++ '_' :: 'v' ::
          (ver.data ++ '_' :: (os.data ++ '_' :: (arch.data ++ ".exe.zip".data)))⟩ := by
      conv_lhs => rw [show exeZipName ty ver os arch =
        ⟨(exeZipName ty ver os arch).data⟩ from rfl]
      rw [hd]
    rw [hstep, parse_canonical ty ver os arch ".exe.zip".data ht hv ho ha
      (by decide) (Or.inr ⟨['e', 'x', 'e', '.', 'z', 'i', 'p'], rfl⟩)]
    rw [parseTail_split ver.data os.data arch.data ".exe.zip".data
      (fun h => (hv.2 '_' h).2.1 rfl) (fun h => (ho.2 '_' h).2.1 rfl)
      (fun h => (ha.2 '.' h).2.2.1 rfl) (Or.inr ⟨['e', 'x', 'e', '.', 'z', 'i', 'p'], rfl⟩)]
    simp

theorem c9_parser_rejects_witness :
    ¬ MatchesProviderPattern (filepathBase "terraform-provider-bad".data) ∧
    ParseProviderFileName "terraform-provider-bad" = none ∧
    ParseProviderFileName (exeZipName "azure" "100" "windows" "amd64") = none := by
  refine ⟨?_, ?_, c9_parser_rejects.2 "azure" "100" "windows" "amd64"
    (by decide) (by decide) (by decide) (by decide)⟩
  · intro hmatch
    have hnone : ParseProviderFileName "terraform-provider-bad" = none := by decide
    obtain ⟨ty, ver, os, arch, suffix, _, _, _, _, _, _, _, _, _, hbase⟩ := hmatch
    have hlen := congrArg List.length hbase
    have hb : (filepathBase "terraform-provider-bad".data).length = 22 := by decide
    rw [hb] at hlen
    simp [List.length_append] at hlen
    have hpn19 : providerNameStart.length = 19 := by decide
    omega
  · decide

/-- Claim C2: packaging a raw binary named
terraform-provider-test_v1.0.0_linux_amd64 produces an archive with exactly
one entry, named terraform-provider-test_v1.0.0 (OS and arch omitted), with
permission mode 0755, and whose stored MS-DOS timestamp decodes to
2049-01-01T00:00:00 UTC (the Go zero time set by the code wraps to that value
in the 16-bit MS-DOS date encoding), for every source file content and
regardless of the source file's own mode or modification time, which are
never read. -/
theorem c2_archive_normalization (content : List Nat) (srcMode : Nat) (srcModTime : Int) :
    CreateZipFromBinary "terraform-provider-test_v1.0.0_linux_amd64" content srcMode srcModTime =
      .ok [⟨"terraform-provider-test_v1.0.0", 0o755, goZeroTimeDos, content⟩] ∧
    msDosTimeToTime goZeroTimeDos = (2049, 1, 1, 0, 0, 0) :=
  ⟨rfl, by decide⟩

/-- Claim C8: for an archive with digest D and file name F, the checksum
manifest's content is exactly D, two literal spaces, F, and a single trailing
newline, and nothing else. -/
theorem c8_sha256sums_format (digest fileName : String)
    (h1 : fileName ≠ "") (h2 : '/' ∉ fileName.data) :
    WriteSHA256SumsText digest fileName = digest ++ "  " ++ fileName ++ "\n" := by
  rw [WriteSHA256SumsText, filepathBase_no_slash fileName.data (string_data_ne_nil h1) h2,
    asString_data]

theorem c8_sha256sums_format_witness :
    WriteSHA256SumsText "b94d27b9" "test.zip" = "b94d27b9  test.zip\n" := by
  rw [c8_sha256sums_format "b94d27b9" "test.zip" (by decide) (by decide)]
  decide

theorem charListLt_irrefl (a : List Char) : charListLt a a = false := by
  induction a with
  | nil => rfl
  | cons x xs ih =>
    rw [charListLt, if_neg (lt_irrefl x), if_neg (lt_irrefl x)]
    exact ih

theorem charListLt_asymm (a : List Char) :
    ∀ b, charListLt a b = true → charListLt b a = false := by
  induction a with
  | nil =>
    intro b h
    cases b with
    | nil => simpa [charListLt] using h
    | cons y ys => rfl
  | cons x xs ih =>
    intro b h
    cases b with
    | nil => simp [charListLt] at h
    | cons y ys =>
      rw [charListLt] at h ⊢
      rcases lt_trichotomy x y with hlt | heq | hgt
      · rw [if_neg (lt_asymm hlt), if_pos hlt]
      · subst heq
        rw [if_neg (lt_irrefl x), if_neg (lt_irrefl x)] at h ⊢
        exact ih ys h
      · rw [if_neg (lt_asymm hgt), if_pos hgt] at h
        exact absurd h (by simp)

theorem charListLt_connex (a : List Char) :
    ∀ b, charListLt a b = false → charListLt b a = false → a = b := by
  induction a with
  | nil =>
    intro b h1 _
    cases b with
    | nil => rfl
    | cons y ys => simp [charListLt] at h1
  | cons x xs ih =>
    intro b h1 h2
    cases b with
    | nil => simp [charListLt] at h2
    | cons y ys =>
      rw [charListLt] at h1 h2
      rcases lt_trichotomy x y with hlt | heq | hgt
      · rw [if_pos hlt] at h1
        exact absurd h1 (by simp)
      · subst heq
        rw [if_neg (lt_irrefl x), if_neg (lt_irrefl x)] at h1 h2
        rw [ih ys h1 h2]
      · rw [if_pos hgt] at h2
        exact absurd h2 (by simp)

theorem charListLt_trans (a : List Char) :
    ∀ b c, charListLt a b = true → charListLt b c = true → charListLt a c = true := by
  induction a with
  | nil =>
    intro b c h1 h2
    cases b with
    | nil => simp [charListLt] at h1
    | cons y ys =>
      cases c with
      | nil => simp [charListLt] at h2
      | cons z zs => rfl
  | cons x xs ih =>
    intro b c h1 h2
    cases b with
    | nil => simp [charListLt] at h1
    | cons y ys =>
      cases c with
      | nil => simp [charListLt] at h2
      | cons z zs =>
        rw [charListLt] at h1 h2 ⊢
        rcases lt_trichotomy x y with hxy | hxy | hxy
        · rcases lt_trichotomy y z with hyz | hyz | hyz
          · rw [if_pos (lt_trans hxy hyz)]
          · subst hyz
            rw [if_pos hxy]
          · rw [if_neg (lt_asymm hyz), if_pos hyz] at h2
            exact absurd h2 (by simp)
        · subst hxy
          rw [if_neg (lt_irrefl x), if_neg (lt_irrefl x)] at h1
          rcases lt_trichotomy x z with hxz | hxz | hxz
          · rw [if_pos hxz]
          · subst hxz
            rw [if_neg (lt_irrefl x), if_neg (lt_irrefl x)] at h2 ⊢
            exact ih ys zs h1 h2
          · rw [if_neg (lt_asymm hxz), if_pos hxz] at h2
            exact absurd h2 (by simp)
        · rw [if_neg (lt_asymm hxy), if_pos hxy] at h1
          exact absurd h1 (by simp)

theorem charListLt_false_iff (a b : List Char) :
    charListLt a b = false ↔ a = b ∨ charListLt b a = true := by
  constructor
  · intro h
    cases hb : charListLt b a with
    | true => exact Or.inr rfl
    | false => exact Or.inl (charListLt_connex a b h hb)
  · intro h
    rcases h with h | h
    · exact h ▸ charListLt_irrefl a
    · exact charListLt_asymm b a h

theorem string_ext (a b : String) (h : a.data = b.data) : a = b := by
  cases a
  cases b
  exact congrArg String.mk h

theorem versionLt_false_iff (a b : String) :
    versionLt a b = false ↔ a = b ∨ versionLt b a = true := by
  rw [versionLt, versionLt, charListLt_false_iff]
  constructor
  · intro h
    rcases h with h | h
    · exact Or.inl (string_ext a b h)
    · exact Or.inr h
  · intro h
    rcases h with h | h
    · exact Or.inl (h ▸ rfl)
    · exact Or.inr h

theorem insertVersionDesc_perm (v : VersionInfo) (l : List VersionInfo) :
    (insertVersionDesc v l).Perm (v :: l) := by
  induction l with
  | nil => exact List.Perm.refl _
  | cons e es ih =>
    rw [insertVersionDesc]
    by_cases h : versionLt e.version v.version = true
    · rw [if_pos h]
    · rw [if_neg h]
      exact (ih.cons e).trans (List.Perm.swap v e es)

theorem insertVersionDesc_sorted (v : VersionInfo) (l : List VersionInfo)
    (h : sortedDesc l) : sortedDesc (insertVersionDesc v l) := by
  induction l with
  | nil => simp [insertVersionDesc, sortedDesc]
  | cons e es ih =>
    rw [sortedDesc, List.pairwise_cons] at h
    obtain ⟨he, hes⟩ := h
    rw [insertVersionDesc]
    by_cases hc : versionLt e.version v.version = true
    · rw [if_pos hc]
      rw [sortedDesc, List.pairwise_cons]
      refine ⟨?_, List.pairwise_cons.mpr ⟨he, hes⟩⟩
      intro y hy
      rcases List.mem_cons.mp hy with hy | hy
      · subst hy
        exact charListLt_asymm _ _ hc
      · cases hvy : versionLt v.version y.version with
        | false => rfl
        | true =>
          have h2 : versionLt e.version y.version = true :=
            charListLt_trans _ _ _ hc hvy
          rw [he y hy] at h2
          exact absurd h2 (by simp)
    · rw [if_neg hc]
      rw [sortedDesc, List.pairwise_cons]
      refine ⟨?_, ih hes⟩
      intro y hy
      have hy' : y ∈ v :: es := (insertVersionDesc_perm v es).subset hy
      rcases List.mem_cons.mp hy' with hy' | hy'
      · subst hy'
        exact Bool.eq_false_iff.mpr hc
      · exact he y hy'

theorem sortVersionsDesc_perm (l : List VersionInfo) :
    (sortVersionsDesc l).Perm l := by
  induction l with
  | nil => exact List.Perm.refl _
  | cons e es ih =>
    rw [sortVersionsDesc]
    exact (insertVersionDesc_perm e (sortVersionsDesc es)).trans (ih.cons e)

theorem sortVersionsDesc_sorted (l : List VersionInfo) :
    sortedDesc (sortVersionsDesc l) := by
  induction l with
  | nil => simp [sortVersionsDesc, sortedDesc]
  | cons e es ih =>
    rw [sortVersionsDesc]
    exact insertVersionDesc_sorted e (sortVersionsDesc es) ih

theorem sortVersionsDesc_of_strict (l : List VersionInfo)
    (h : strictlySorted l) : sortVersionsDesc l = l := by
  induction l with
  | nil => rfl
  | cons e es ih =>
    rw [strictlySorted, List.pairwise_cons] at h
    rw [sortVersionsDesc, ih h.2]
    cases es with
    | nil => rfl
    | cons f fs =>
      rw [insertVersionDesc, if_pos (h.1 f (List.mem_cons_self _ _))]

theorem map_id_of {α : Type} (g : α → α) (l : List α) (h : ∀ x ∈ l, g x = x) :
    l.map g = l := by
  induction l with
  | nil => rfl
  | cons a as ih =>
    rw [List.map_cons, h a (List.mem_cons_self _ _), ih fun x hx => h x (List.mem_cons_of_mem _ hx)]

theorem pairwise_version_eq (l : List VersionInfo)
    (hnp : l.Pairwise fun x y => x.version ≠ y.version) :
    ∀ e ∈ l, ∀ e' ∈ l, e.version = e'.version → e = e' := by
  induction l with
  | nil => intro e he; simp at he
  | cons f fs ih =>
    rw [List.pairwise_cons] at hnp
    intro e he e' he' hv
    rcases List.mem_cons.mp he with hef | hef
    · rcases List.mem_cons.mp he' with hee | hee
      · rw [hef, hee]
      · subst hef
        exact absurd hv (hnp.1 e' hee)
    · rcases List.mem_cons.mp he' with hee | hee
      · subst hee
        exact absurd hv.symm (hnp.1 e hef)
      · exact ih hnp.2 e hef e' hee hv

theorem strictlySorted_pairwise_ne (l : List VersionInfo) (h : strictlySorted l) :
    l.Pairwise fun x y => x.version ≠ y.version := by
  rw [strictlySorted] at h
  refine h.imp ?_
  intro x y hxy heq
  rw [heq] at hxy
  rw [versionLt, charListLt_irrefl] at hxy
  exact absurd hxy (by simp)

theorem strict_nodup_keys (l : List VersionInfo) (h : strictlySorted l) :
    (l.map (·.version)).Nodup := by
  unfold List.Nodup
  rw [List.pairwise_map]
  exact strictlySorted_pairwise_ne l h

theorem strict_of_sorted_nodup (l : List VersionInfo)
    (hs : sortedDesc l) (hn : (l.map (·.version)).Nodup) : strictlySorted l := by
  rw [strictlySorted]
  rw [sortedDesc] at hs
  have hne : l.Pairwise fun x y => x.version ≠ y.version := by
    unfold List.Nodup at hn
    rw [List.pairwise_map] at hn
    exact hn
  refine (hs.and hne).imp ?_
  intro x y hxy
  rcases (versionLt_false_iff _ _).mp hxy.1 with h | h
  · exact absurd h hxy.2
  · exact h

theorem platform_any_iff (ps : List Platform) (o a : String) :
    (ps.any fun p => decide (p.os = o ∧ p.arch = a)) = true ↔ (⟨o, a⟩ : Platform) ∈ ps := by
  rw [List.any_eq_true]
  constructor
  · rintro ⟨p, hp, hdec⟩
    rw [decide_eq_true_eq] at hdec
    obtain ⟨h1, h2⟩ := hdec
    have hpe : p = ⟨o, a⟩ := by
      cases p
      simp_all
    exact hpe ▸ hp
  · intro hm
    exact ⟨⟨o, a⟩, hm, by simp⟩

theorem any_version_iff (l : List VersionInfo) (v : String) :
    (l.any fun e => decide (e.version = v)) = true ↔ ∃ e ∈ l, e.version = v := by
  rw [List.any_eq_true]
  simp only [decide_eq_true_eq]

theorem updateFirstVersion_keys (v o a : String) (l : List VersionInfo) :
    (updateFirstVersion v o a l).map (·.version) = l.map (·.version) := by
  induction l with
  | nil => rfl
  | cons e es ih =>
    rw [updateFirstVersion]
    by_cases he : e.version = v
    · rw [if_pos he]
      by_cases hp : (e.platforms.any fun p => decide (p.os = o ∧ p.arch = a)) = true
      · rw [if_pos hp]
      · rw [if_neg hp]
        rfl
    · rw [if_neg he]
      rw [List.map_cons, List.map_cons, ih]

theorem updateFirstVersion_noop (v o a : String) (l : List VersionInfo)
    (hnp : l.Pairwise fun x y => x.version ≠ y.version)
    (e : VersionInfo) (he : e ∈ l) (hv : e.version = v)
    (hplat : (⟨o, a⟩ : Platform) ∈ e.platforms) :
    updateFirstVersion v o a l = l := by
  induction l with
  | nil => rfl
  | cons f fs ih =>
    rw [List.pairwise_cons] at hnp
    rcases List.mem_cons.mp he with he | he
    · subst he
      rw [updateFirstVersion, if_pos hv, if_pos ((platform_any_iff _ _ _).mpr hplat)]
    · have hf : f.version ≠ v := by
        intro hfv
        exact (hnp.1 e he) (hfv.trans hv.symm)
      rw [updateFirstVersion, if_neg hf, ih hnp.2 he]

theorem updateFirstVersion_map (v o a : String) (l : List VersionInfo)
    (hnp : l.Pairwise fun x y => x.version ≠ y.version)
    (e : VersionInfo) (he : e ∈ l) (hv : e.version = v)
    (hplat : (⟨o, a⟩ : Platform) ∉ e.platforms) :
    updateFirstVersion v o a l =
      l.map fun w =>
        if w.version = v then { w with platforms := w.platforms ++ [⟨o, a⟩] } else w := by
  induction l with
  | nil => rfl
  | cons f fs ih =>
    rw [List.pairwise_cons] at hnp
    rcases List.mem_cons.mp he with he | he
    · subst he
      rw [updateFirstVersion, if_pos hv]
      rw [if_neg fun hany => hplat ((platform_any_iff _ _ _).mp hany)]
      rw [List.map_cons, if_pos hv]
      congr 1
      refine (map_id_of _ _ ?_).symm
      intro w hw
      rw [if_neg]
      intro hwv
      exact (hnp.1 w hw) (hv.trans hwv.symm)
    · have hf : f.version ≠ v := by
        intro hfv
        exact (hnp.1 e he) (hfv.trans hv.symm)
      rw [updateFirstVersion, if_neg hf, List.map_cons, if_neg hf, ih hnp.2 he]

theorem versionPlatformExists_iff (vi : VersionsIndex) (v o a : String)
    (hnp : vi.versions.Pairwise fun x y => x.version ≠ y.version) :
    versionPlatformExists vi v o a = true ↔
      ∃ e ∈ vi.versions, e.version = v ∧ (⟨o, a⟩ : Platform) ∈ e.platforms := by
  rw [versionPlatformExists]
  cases hf : vi.versions.find? fun e => decide (e.version = v) with
  | none =>
    constructor
    · intro h
      simp at h
    · rintro ⟨e, he, hv, _⟩
      have := List.find?_eq_none.mp hf e he
      rw [decide_eq_true_eq] at this
      exact absurd hv this
  | some e =>
    have hmem := List.mem_of_find?_eq_some hf
    have hpred := List.find?_some hf
    rw [decide_eq_true_eq] at hpred
    rw [platform_any_iff]
    constructor
    · intro hm
      exact ⟨e, hmem, hpred, hm⟩
    · rintro ⟨e', he', hv', hp'⟩
      have : e' = e :=
        pairwise_version_eq vi.versions hnp e' he' e hmem (hv'.trans hpred.symm)
      exact this ▸ hp'

theorem AddVersion_versions (vi : VersionsIndex) (v o a : String) :
    (AddVersion vi v o a).versions =
      sortVersionsDesc
        (if vi.versions.any fun e => decide (e.version = v) then
          updateFirstVersion v o a vi.versions
        else vi.versions ++ [⟨v, ["6.0"], [⟨o, a⟩]⟩]) := rfl

theorem AddVersion_id (vi : VersionsIndex) (v o a : String) :
    (AddVersion vi v o a).id = vi.id := rfl

theorem AddVersion_warnings (vi : VersionsIndex) (v o a : String) :
    (AddVersion vi v o a).warnings = vi.warnings := rfl

theorem AddVersion_strict (vi : VersionsIndex) (v o a : String)
    (h : strictlySorted vi.versions) :
    strictlySorted (AddVersion vi v o a).versions := by
  rw [AddVersion_versions]
  apply strict_of_sorted_nodup _ (sortVersionsDesc_sorted _)
  have hperm := (sortVersionsDesc_perm
    (if vi.versions.any fun e => decide (e.version = v) then
      updateFirstVersion v o a vi.versions
    else vi.versions ++ [⟨v, ["6.0"], [⟨o, a⟩]⟩])).map (·.version)
  rw [hperm.nodup_iff]
  by_cases hany : (vi.versions.any fun e => decide (e.version = v)) = true
  · rw [if_pos hany, updateFirstVersion_keys]
    exact strict_nodup_keys _ h
  · rw [if_neg hany]
    rw [List.map_append]
    rw [List.nodup_append]
    refine ⟨strict_nodup_keys _ h, by simp, ?_⟩
    intro x hx
    simp only [List.map_cons, List.map_nil, List.mem_singleton]
    intro hxv
    rcases List.mem_map.mp hx with ⟨e, he, hev⟩
    have : ∃ e ∈ vi.versions, e.version = v := ⟨e, he, by rw [hev, hxv]⟩
    exact hany ((any_version_iff _ _).mpr this)

theorem AddVersion_mem (vi : VersionsIndex) (v o a : String)
    (h : strictlySorted vi.versions) :
    versionPlatformExists (AddVersion vi v o a) v o a = true := by
  rw [versionPlatformExists_iff _ _ _ _
    (strictlySorted_pairwise_ne _ (AddVersion_strict vi v o a h))]
  rw [AddVersion_versions]
  by_cases hany : (vi.versions.any fun e => decide (e.version = v)) = true
  · obtain ⟨e, he, hv⟩ := (any_version_iff _ _).mp hany
    by_cases hp : (⟨o, a⟩ : Platform) ∈ e.platforms
    · refine ⟨e, ?_, hv, hp⟩
      rw [if_pos hany,
        updateFirstVersion_noop v o a _ (strictlySorted_pairwise_ne _ h) e he hv hp]
      exact (sortVersionsDesc_perm _).mem_iff.mpr he
    · refine ⟨{ e with platforms := e.platforms ++ [⟨o, a⟩] }, ?_, hv, by simp⟩
      rw [if_pos hany,
        updateFirstVersion_map v o a _ (strictlySorted_pairwise_ne _ h) e he hv hp]
      apply (sortVersionsDesc_perm _).mem_iff.mpr
      apply List.mem_map.mpr
      exact ⟨e, he, by rw [if_pos hv]⟩
  · refine ⟨⟨v, ["6.0"], [⟨o, a⟩]⟩, ?_, rfl, by simp⟩
    rw [if_neg hany]
    apply (sortVersionsDesc_perm _).mem_iff.mpr
    simp

theorem AddVersion_preserves (vi : VersionsIndex) (v o a v' o' a' : String)
    (h : strictlySorted vi.versions)
    (hex : versionPlatformExists vi v o a = true) :
    versionPlatformExists (AddVersion vi v' o' a') v o a = true := by
  obtain ⟨e, he, hv, hp⟩ :=
    (versionPlatformExists_iff vi v o a (strictlySorted_pairwise_ne _ h)).mp hex
  rw [versionPlatformExists_iff _ _ _ _
    (strictlySorted_pairwise_ne _ (AddVersion_strict vi v' o' a' h))]
  rw [AddVersion_versions]
  by_cases hany : (vi.versions.any fun e => decide (e.version = v')) = true
  · obtain ⟨f, hf, hfv⟩ := (any_version_iff _ _).mp hany
    by_cases hfp : (⟨o', a'⟩ : Platform) ∈ f.platforms
    · refine ⟨e, ?_, hv, hp⟩
      rw [if_pos hany,
        updateFirstVersion_noop v' o' a' _ (strictlySorted_pairwise_ne _ h) f hf hfv hfp]
      exact (sortVersionsDesc_perm _).mem_iff.mpr he
    · rw [if_pos hany,
        updateFirstVersion_map v' o' a' _ (strictlySorted_pairwise_ne _ h) f hf hfv hfp]
      by_cases hev : e.version = v'
      · refine ⟨{ e with platforms := e.platforms ++ [⟨o', a'⟩] }, ?_, hv,
          List.mem_append_left _ hp⟩
        apply (sortVersionsDesc_perm _).mem_iff.mpr
        apply List.mem_map.mpr
        exact ⟨e, he, by rw [if_pos hev]⟩
      · refine ⟨e, ?_, hv, hp⟩
        apply (sortVersionsDesc_perm _).mem_iff.mpr
        apply List.mem_map.mpr
        exact ⟨e, he, by rw [if_neg hev]⟩
  · refine ⟨e, ?_, hv, hp⟩
    rw [if_neg hany]
    apply (sortVersionsDesc_perm _).mem_iff.mpr
    exact List.mem_append_left _ he

theorem AddVersion_noop (vi : VersionsIndex) (v o a : String)
    (h : strictlySorted vi.versions)
    (e : VersionInfo) (he : e ∈ vi.versions) (hv : e.version = v)
    (hp : (⟨o, a⟩ : Platform) ∈ e.platforms) :
    AddVersion vi v o a = vi := by
  have hany : (vi.versions.any fun x => decide (x.version = v)) = true :=
    (any_version_iff _ _).mpr ⟨e, he, hv⟩
  cases vi with
  | mk id versions warnings =>
    simp only [AddVersion]
    rw [if_pos hany,
      updateFirstVersion_noop v o a _ (strictlySorted_pairwise_ne _ h) e he hv hp,
      sortVersionsDesc_of_strict _ h]

theorem AddVersion_map (vi : VersionsIndex) (v o a : String)
    (h : strictlySorted vi.versions)
    (e : VersionInfo) (he : e ∈ vi.versions) (hv : e.version = v)
    (hp : (⟨o, a⟩ : Platform) ∉ e.platforms) :
    (AddVersion vi v o a).versions =
      vi.versions.map fun w =>
        if w.version = v then { w with platforms := w.platforms ++ [⟨o, a⟩] } else w := by
  have hany : (vi.versions.any fun x => decide (x.version = v)) = true :=
    (any_version_iff _ _).mpr ⟨e, he, hv⟩
  rw [AddVersion_versions, if_pos hany,
    updateFirstVersion_map v o a _ (strictlySorted_pairwise_ne _ h) e he hv hp]
  apply sortVersionsDesc_of_strict
  rw [strictlySorted]
  rw [List.pairwise_map]
  rw [strictlySorted] at h
  refine h.imp ?_
  intro x y hxy
  by_cases hx : x.version = v <;> by_cases hy : y.version = v
  · rw [if_pos hx, if_pos hy]
    exact hxy
  · rw [if_pos hx, if_neg hy]
    exact hxy
  · rw [if_neg hx, if_pos hy]
    exact hxy
  · rw [if_neg hx, if_neg hy]
    exact hxy

/-- Claim C3: merge behavior of AddVersion on an index satisfying the sorted
data-model invariant.  If no entry has the version, a new entry with the
fixed protocol list and the single platform is appended (up to the final
re-sort, stated as a permutation).  If an entry with the version exists and
already has the platform, the call leaves the index unchanged.  If it exists
without the platform, exactly that entry gains the platform at the end of
its platform list.  After every call the entries are sorted in descending
lexicographic order of their version strings (the order Go's string
comparison computes). -/
theorem c3_addversion_merge (vi : VersionsIndex) (v o a : String)
    (h : strictlySorted vi.versions) :
    ((∀ e ∈ vi.versions, e.version ≠ v) →
      (AddVersion vi v o a).versions.Perm (vi.versions ++ [⟨v, ["6.0"], [⟨o, a⟩]⟩])) ∧
    (∀ e ∈ vi.versions, e.version = v → (⟨o, a⟩ : Platform) ∈ e.platforms →
      AddVersion vi v o a = vi) ∧
    (∀ e ∈ vi.versions, e.version = v → (⟨o, a⟩ : Platform) ∉ e.platforms →
      (AddVersion vi v o a).versions =
        vi.versions.map fun w =>
          if w.version = v then { w with platforms := w.platforms ++ [⟨o, a⟩] } else w) ∧
    sortedDesc (AddVersion vi v o a).versions := by
  refine ⟨?_, ?_, ?_, ?_⟩
  · intro hne
    have hany : (vi.versions.any fun x => decide (x.version = v)) = false := by
      cases hc : vi.versions.any fun x => decide (x.version = v) with
      | false => rfl
      | true =>
        obtain ⟨e, he, hv⟩ := (any_version_iff _ _).mp hc
        exact absurd hv (hne e he)
    rw [AddVersion_versions, if_neg (by rw [hany]; simp)]
    exact sortVersionsDesc_perm _
  · intro e he hv hp
    exact AddVersion_noop vi v o a h e he hv hp
  · intro e he hv hp
    exact AddVersion_map vi v o a h e he hv hp
  · rw [AddVersion_versions]
    exact sortVersionsDesc_sorted _

theorem c3_addversion_merge_witness :
    ((AddVersion ⟨"t", [⟨"1.0.0", ["6.0"], [⟨"osA", "archA"⟩]⟩], []⟩
        "2.0.0" "osA" "archA").versions.Perm
      ([⟨"1.0.0", ["6.0"], [⟨"osA", "archA"⟩]⟩] ++
        [⟨"2.0.0", ["6.0"], [⟨"osA", "archA"⟩]⟩])) ∧
    (AddVersion ⟨"t", [⟨"1.0.0", ["6.0"], [⟨"osA", "archA"⟩]⟩], []⟩
        "1.0.0" "osA" "archA" =
      ⟨"t", [⟨"1.0.0", ["6.0"], [⟨"osA", "archA"⟩]⟩], []⟩) ∧
    (AddVersion (AddVersion (AddVersion ⟨"t", [], []⟩ "1.0.0" "osA" "archA")
        "1.0.0" "osB" "archB") "2.0.0" "osA" "archA" =
      ⟨"t", [⟨"2.0.0", ["6.0"], [⟨"osA", "archA"⟩]⟩,
             ⟨"1.0.0", ["6.0"], [⟨"osA", "archA"⟩, ⟨"osB", "archB"⟩]⟩], []⟩) := by
  refine ⟨?_, ?_, by decide⟩
  · exact (c3_addversion_merge ⟨"t", [⟨"1.0.0", ["6.0"], [⟨"osA", "archA"⟩]⟩], []⟩
      "2.0.0" "osA" "archA" (by decide)).1 (by decide)
  · exact (c3_addversion_merge ⟨"t", [⟨"1.0.0", ["6.0"], [⟨"osA", "archA"⟩]⟩], []⟩
      "1.0.0" "osA" "archA" (by decide)).2.1
      ⟨"1.0.0", ["6.0"], [⟨"osA", "archA"⟩]⟩ (by simp) rfl (by simp)

/-- Claim C5: loading a versions index returns a fresh empty index with id
equal to the requested type when no file exists at the path, the same fresh
index when the file exists but is empty, and an error (no index value at
all) when the file is non-empty and unparseable; in the error case the
processing of the artifact stops before any write, so the call leaves the
existing file, and the whole filesystem, untouched. -/
theorem c5_read_versions_index (fs : Fs) (path id : String) :
    (fs path = none → ReadVersionsIndex fs path id = .ok ⟨id, [], []⟩) ∧
    (fs path = some (.rawBytes []) → ReadVersionsIndex fs path id = .ok ⟨id, [], []⟩) ∧
    (∀ bs, bs ≠ [] → fs path = some (.rawBytes bs) →
      ∃ e, ReadVersionsIndex fs path id = .error e) ∧
    (∀ cfg filePath content info bs, bs ≠ [] →
      ParseProviderFileName filePath = some info →
      fs (TargetVersionsIndexPath info) = some (.rawBytes bs) →
      ∃ e, processProviderFile cfg fs filePath content = ⟨some e, false, fs, []⟩) := by
  refine ⟨?_, ?_, ?_, ?_⟩
  · intro h
    unfold ReadVersionsIndex
    rw [h]
  · intro h
    unfold ReadVersionsIndex
    rw [h]
  · intro bs hbs h
    cases bs with
    | nil => exact absurd rfl hbs
    | cons b bs' =>
      unfold ReadVersionsIndex
      rw [h]
      exact ⟨_, rfl⟩
  · intro cfg filePath content info bs hbs hparse hfs
    cases bs with
    | nil => exact absurd rfl hbs
    | cons b bs' =>
      unfold processProviderFile ReadVersionsIndex
      rw [hparse]
      dsimp only
      rw [hfs]
      exact ⟨_, rfl⟩

theorem c5_read_versions_index_witness :
    (ReadVersionsIndex fsEmpty "t/versions/index.json" "t" = .ok ⟨"t", [], []⟩) ∧
    (ReadVersionsIndex (fsWrite fsEmpty "t/versions/index.json" (.rawBytes []))
      "t/versions/index.json" "t" = .ok ⟨"t", [], []⟩) ∧
    (∃ e, ReadVersionsIndex (fsWrite fsEmpty "t/versions/index.json" (.rawBytes [1]))
      "t/versions/index.json" "t" = .error e) ∧
    (∃ e, processProviderFile cfgDemo
        (fsWrite fsEmpty "t/versions/index.json" (.rawBytes [1]))
        "terraform-provider-t_v1.0.0_linux_amd64" [9] =
      ⟨some e, false, fsWrite fsEmpty "t/versions/index.json" (.rawBytes [1]), []⟩) := by
  refine ⟨(c5_read_versions_index fsEmpty "t/versions/index.json" "t").1 rfl,
    (c5_read_versions_index _ "t/versions/index.json" "t").2.1 rfl,
    (c5_read_versions_index _ "t/versions/index.json" "t").2.2.1 [1] (by decide) rfl,
    (c5_read_versions_index _ "t/versions/index.json" "t").2.2.2 cfgDemo
      "terraform-provider-t_v1.0.0_linux_amd64" [9]
      ⟨"t", "1.0.0", "linux", "amd64", ""⟩ [1] (by decide) (by decide) rfl⟩

theorem filepathBase_cases (l : List Char) :
    filepathBase l = ['.'] ∨ filepathBase l = ['/'] ∨ '/' ∉ filepathBase l := by
  unfold filepathBase
  by_cases h1 : l.isEmpty
  · rw [if_pos h1]
    exact Or.inl rfl
  · rw [if_neg h1]
    by_cases h2 : (l.reverse.dropWhile (· == '/')).isEmpty
    · rw [if_pos h2]
      exact Or.inr (Or.inl rfl)
    · rw [if_neg h2]
      refine Or.inr (Or.inr ?_)
      intro hm
      rw [List.mem_reverse] at hm
      have := mem_takeWhile (· != '/') _ '/' hm
      simp at this

theorem parse_no_slash (s : String) (info : ProviderInfo)
    (h : ParseProviderFileName s = some info) : '/' ∉ filepathBase s.data := by
  rcases filepathBase_cases s.data with hb | hb | hb
  · rw [ParseProviderFileName, hb,
      show dropLiteral providerNameStart ['.'] = (none : Option (List Char)) from by decide] at h
    simp at h
  · rw [ParseProviderFileName, hb,
      show dropLiteral providerNameStart ['/'] = (none : Option (List Char)) from by decide] at h
    simp at h
  · exact hb

theorem parse_info (s : String) (info : ProviderInfo)
    (h : ParseProviderFileName s = some info) :
    info.type ≠ "" ∧ NoSlashInfo info := by
  have hns := parse_no_slash s info h
  rw [ParseProviderFileName] at h
  cases hdl : dropLiteral providerNameStart (filepathBase s.data) with
  | none =>
    rw [hdl] at h
    simp at h
  | some rest =>
    rw [hdl] at h
    have hbase := dropLiteral_sound providerNameStart _ rest hdl
    obtain ⟨t, rest', hcs, hnd, hth⟩ := parseWithType_sound rest [] info h
    rw [typeHere] at hth
    by_cases hemp : ([] ++ t : List Char).isEmpty
    · rw [if_pos hemp] at hth
      simp at hth
    · rw [if_neg hemp] at hth
      cases hpt : parseTail rest' with
      | none =>
        rw [hpt] at hth
        simp at hth
      | some quad =>
        rw [hpt] at hth
        obtain ⟨ver, os, arch, ext⟩ := quad
        simp only [Option.map, Option.some.injEq] at hth
        obtain ⟨hv1, hv2, ho1, ho2, ha1, ha2, suffix, hrest', hsuf⟩ :=
          parseTail_sound rest' ver os arch ext hpt
        have hmem : ∀ c, c ∈ t ∨ c ∈ ver ∨ c ∈ os ∨ c ∈ arch → c ∈ filepathBase s.data := by
          intro c hc
          rw [hbase, hcs, hrest']
          rcases hc with hc | hc | hc | hc
          · simp [hc]
          · simp [hc]
          · simp [hc]
          · simp [hc]
        have htype : info.type.data = t := by
          rw [← hth]
          simp [data_asString]
        have hver : info.version.data = ver := by
          rw [← hth]
          simp [data_asString]
        have hos : info.os.data = os := by
          rw [← hth]
          simp [data_asString]
        have harch : info.arch.data = arch := by
          rw [← hth]
          simp [data_asString]
        refine ⟨?_, ?_, ?_, ?_, ?_⟩
        · intro he
          apply hemp
          rw [List.nil_append]
          have : t = [] := by
            rw [← htype, he]
          rw [this]
          rfl
        · intro c hc he
          subst he
          exact hns (hmem '/' (Or.inl (htype ▸ hc)))
        · intro c hc he
          subst he
          exact hns (hmem '/' (Or.inr (Or.inl (hver ▸ hc))))
        · intro c hc he
          subst he
          exact hns (hmem '/' (Or.inr (Or.inr (Or.inl (hos ▸ hc)))))
        · intro c hc he
          subst he
          exact hns (hmem '/' (Or.inr (Or.inr (Or.inr (harch ▸ hc)))))

theorem count_zero_of (l : List Char) (h : ∀ c ∈ l, c ≠ '/') : l.count '/' = 0 :=
  List.count_eq_zero.mpr fun hm => h '/' hm rfl

theorem count_data_append (a b : String) :
    (a ++ b).data.count '/' = a.data.count '/' + b.data.count '/' := by
  rw [string_data_append, List.count_append]

theorem zipFileName_count (info : ProviderInfo) (h : NoSlashInfo info) :
    (TargetZipFileName info).data.count '/' = 0 := by
  rw [TargetZipFileName]
  rw [count_data_append, count_data_append, count_data_append, count_data_append,
    count_data_append, count_data_append, count_data_append, count_data_append]
  rw [count_zero_of _ h.1, count_zero_of _ h.2.1, count_zero_of _ h.2.2.1,
    count_zero_of _ h.2.2.2]
  decide

theorem shaFileName_count (info : ProviderInfo) (h : NoSlashInfo info) :
    (TargetSHASumsFileName info).data.count '/' = 0 := by
  rw [TargetSHASumsFileName]
  rw [count_data_append, count_data_append, count_data_append, count_data_append,
    count_data_append, count_data_append, count_data_append, count_data_append]
  rw [count_zero_of _ h.1, count_zero_of _ h.2.1, count_zero_of _ h.2.2.1,
    count_zero_of _ h.2.2.2]
  decide

theorem downloadPath_count (info : ProviderInfo) (h : NoSlashInfo info) :
    (TargetDownloadPath info).data.count '/' = 4 := by
  rw [TargetDownloadPath]
  rw [count_data_append, count_data_append, count_data_append, count_data_append,
    count_data_append, count_data_append]
  rw [count_zero_of _ h.1, count_zero_of _ h.2.1, count_zero_of _ h.2.2.1,
    count_zero_of _ h.2.2.2]
  decide

theorem indexPath_count (info : ProviderInfo) (h : NoSlashInfo info) :
    (TargetVersionsIndexPath info).data.count '/' = 2 := by
  rw [TargetVersionsIndexPath, count_data_append, count_zero_of _ h.1]
  decide

theorem zipPath_count (info : ProviderInfo) (h : NoSlashInfo info) :
    (TargetZipPath info).data.count '/' = 5 := by
  rw [TargetZipPath, count_data_append, count_data_append, downloadPath_count info h,
    zipFileName_count info h]
  decide

theorem shaPath_count (info : ProviderInfo) (h : NoSlashInfo info) :
    (TargetSHASumsPath info).data.count '/' = 5 := by
  rw [TargetSHASumsPath, count_data_append, count_data_append, downloadPath_count info h,
    shaFileName_count info h]
  decide

theorem sigPath_count (info : ProviderInfo) (h : NoSlashInfo info) :
    (TargetSigPath info).data.count '/' = 5 := by
  rw [TargetSigPath, TargetSigFileName, count_data_append, count_data_append,
    count_data_append, downloadPath_count info h, shaFileName_count info h]
  decide

theorem downloadIndexPath_count (info : ProviderInfo) (h : NoSlashInfo info) :
    (TargetDownloadIndexPath info).data.count '/' = 5 := by
  rw [TargetDownloadIndexPath, count_data_append, downloadPath_count info h]
  decide

theorem ne_of_count (s t : String) (m n : Nat) (hs : s.data.count '/' = m)
    (ht : t.data.count '/' = n) (hmn : m ≠ n) : s ≠ t := by
  intro he
  rw [he, ht] at hs
  exact hmn hs.symm

theorem ne_of_last (s t : String) (c d : Char) (hs : s.data.getLast? = some c)
    (ht : t.data.getLast? = some d) (hcd : c ≠ d) : s ≠ t := by
  intro he
  rw [he, ht] at hs
  exact hcd (Option.some.inj hs).symm

theorem getLast_append_str (a b : String) (hb : b.data ≠ []) :
    (a ++ b).data.getLast? = b.data.getLast? := by
  rw [string_data_append]
  exact List.getLast?_append_of_ne_nil _ hb

theorem zipFileName_data_ne (info : ProviderInfo) : (TargetZipFileName info).data ≠ [] := by
  rw [TargetZipFileName, string_data_append]
  intro he
  rcases List.append_eq_nil.mp he with ⟨_, h2⟩
  exact absurd h2 (by decide)

theorem shaFileName_data_ne (info : ProviderInfo) :
    (TargetSHASumsFileName info).data ≠ [] := by
  rw [TargetSHASumsFileName, string_data_append]
  intro he
  rcases List.append_eq_nil.mp he with ⟨_, h2⟩
  exact absurd h2 (by decide)

theorem sigFileName_data_ne (info : ProviderInfo) : (TargetSigFileName info).data ≠ [] := by
  rw [TargetSigFileName, string_data_append]
  intro he
  rcases List.append_eq_nil.mp he with ⟨_, h2⟩
  exact absurd h2 (by decide)

theorem zipPath_last (info : ProviderInfo) :
    (TargetZipPath info).data.getLast? = some 'p' := by
  rw [TargetZipPath, getLast_append_str _ _ (zipFileName_data_ne info),
    TargetZipFileName, getLast_append_str _ _ (by decide)]
  decide

theorem shaPath_last (info : ProviderInfo) :
    (TargetSHASumsPath info).data.getLast? = some 'S' := by
  rw [TargetSHASumsPath, getLast_append_str _ _ (shaFileName_data_ne info),
    TargetSHASumsFileName, getLast_append_str _ _ (by decide)]
  decide

theorem sigPath_last (info : ProviderInfo) :
    (TargetSigPath info).data.getLast? = some 'g' := by
  rw [TargetSigPath, getLast_append_str _ _ (sigFileName_data_ne info),
    TargetSigFileName, getLast_append_str _ _ (by decide)]
  decide

theorem downloadIndexPath_last (info : ProviderInfo) :
    (TargetDownloadIndexPath info).data.getLast? = some 'n' := by
  rw [TargetDownloadIndexPath, getLast_append_str _ _ (by decide)]
  decide

theorem fsWrite_same (fs : Fs) (p : String) (d : FileData) : fsWrite fs p d p = some d := by
  simp [fsWrite]

theorem fsWrite_other (fs : Fs) (p : String) (d : FileData) (q : String) (h : q ≠ p) :
    fsWrite fs p d q = fs q := by
  simp [fsWrite, h]

theorem ReadVersionsIndex_strict (fs : Fs) (path id : String) (idx : VersionsIndex)
    (hwf : IndexWF fs) (h : ReadVersionsIndex fs path id = .ok idx) :
    strictlySorted idx.versions := by
  unfold ReadVersionsIndex at h
  cases hp : fs path with
  | none =>
    rw [hp] at h
    simp only [Except.ok.injEq] at h
    rw [← h]
    exact List.Pairwise.nil
  | some d =>
    rw [hp] at h
    cases d with
    | rawBytes bs =>
      cases bs with
      | nil =>
        simp only [Except.ok.injEq] at h
        rw [← h]
        exact List.Pairwise.nil
      | cons b bs' => simp at h
    | versionsIndexFile i =>
      simp only [Except.ok.injEq] at h
      rw [← h]
      exact hwf path i hp
    | zipArchive es => simp at h
    | shaSums t => simp at h
    | signatureBytes bs => simp at h
    | downloadIndexFile d => simp at h

theorem pipelineResult_cases (cfg : BuildConfig) (fs : Fs) (filePath : String)
    (content : List Nat) (info : ProviderInfo) (idx : VersionsIndex) :
    (∃ e, pipelineResult cfg fs filePath content info idx =
      ⟨some e, false, fs3Of cfg fs filePath content info idx,
       [.writeZip (TargetZipPath info), .writeVersionsIndex (TargetVersionsIndexPath info),
        .writeShaSums (TargetSHASumsPath info)]⟩) ∨
    (∃ e sigBytes, pipelineResult cfg fs filePath content info idx =
      ⟨some e, false,
       fsWrite (fs3Of cfg fs filePath content info idx) (TargetSigPath info)
         (.signatureBytes sigBytes),
       [.writeZip (TargetZipPath info), .writeVersionsIndex (TargetVersionsIndexPath info),
        .writeShaSums (TargetSHASumsPath info), .writeSignature (TargetSigPath info)]⟩) ∨
    (∃ sigBytes d, pipelineResult cfg fs filePath content info idx =
      ⟨none, false,
       fsWrite
         (fsWrite (fs3Of cfg fs filePath content info idx) (TargetSigPath info)
           (.signatureBytes sigBytes))
         (TargetDownloadIndexPath info) (.downloadIndexFile d),
       [.writeZip (TargetZipPath info), .writeVersionsIndex (TargetVersionsIndexPath info),
        .writeShaSums (TargetSHASumsPath info), .writeSignature (TargetSigPath info),
        .writeDownloadIndex (TargetDownloadIndexPath info)]⟩) := by
  unfold pipelineResult
  cases cfg.signer.keyResult with
  | error e => exact Or.inl ⟨_, rfl⟩
  | ok keyId =>
    cases cfg.signer.sign (shaTextOf cfg filePath content info) with
    | error e => exact Or.inl ⟨_, rfl⟩
    | ok sigBytes =>
      cases cfg.signer.pubResult with
      | error e => exact Or.inr (Or.inl ⟨_, sigBytes, rfl⟩)
      | ok pub =>
        cases deriveOsArch (TargetZipFileName info) with
        | error e => exact Or.inr (Or.inl ⟨_, sigBytes, rfl⟩)
        | ok oa => exact Or.inr (Or.inr ⟨sigBytes, _, rfl⟩)

theorem processProviderFile_cases (cfg : BuildConfig) (fs : Fs) (path : String)
    (content : List Nat) :
    (∃ e, processProviderFile cfg fs path content = ⟨some e, false, fs, []⟩) ∨
    (processProviderFile cfg fs path content = ⟨none, true, fs, []⟩ ∧
      ∃ info idx, ParseProviderFileName path = some info ∧
        ReadVersionsIndex fs (TargetVersionsIndexPath info) info.type = .ok idx ∧
        versionPlatformExists idx info.version info.os info.arch = true) ∨
    (∃ info idx, ParseProviderFileName path = some info ∧
      ReadVersionsIndex fs (TargetVersionsIndexPath info) info.type = .ok idx ∧
      versionPlatformExists idx info.version info.os info.arch = false ∧
      processProviderFile cfg fs path content = pipelineResult cfg fs path content info idx) := by
  unfold processProviderFile
  cases hp : ParseProviderFileName path with
  | none => exact Or.inl ⟨_, rfl⟩
  | some info =>
    dsimp only
    cases hre : ReadVersionsIndex fs (TargetVersionsIndexPath info) info.type with
    | error e => exact Or.inl ⟨_, rfl⟩
    | ok idx =>
      dsimp only
      by_cases hg : versionPlatformExists idx info.version info.os info.arch = true
      · rw [if_pos hg]
        exact Or.inr (Or.inl ⟨rfl, info, idx, rfl, hre, hg⟩)
      · rw [if_neg hg]
        exact Or.inr (Or.inr ⟨info, idx, rfl, hre, Bool.eq_false_iff.mpr hg, rfl⟩)

theorem zipDataOf_nonindex (filePath : String) (content : List Nat) (info : ProviderInfo) :
    ∀ i, zipDataOf filePath content info ≠ .versionsIndexFile i := by
  intro i
  unfold zipDataOf
  split
  · simp
  · simp

theorem fs3Of_index (cfg : BuildConfig) (fs : Fs) (filePath : String) (content : List Nat)
    (info : ProviderInfo) (idx : VersionsIndex) (hno : NoSlashInfo info) :
    fs3Of cfg fs filePath content info idx (TargetVersionsIndexPath info) =
      some (.versionsIndexFile (AddVersion idx info.version info.os info.arch)) := by
  have hsha : TargetVersionsIndexPath info ≠ TargetSHASumsPath info :=
    ne_of_count _ _ 2 5 (indexPath_count info hno) (shaPath_count info hno) (by decide)
  rw [fs3Of, fsWrite_other _ _ _ _ hsha, fs2Of, fsWrite_same]

theorem pipelineResult_fs_index (cfg : BuildConfig) (fs : Fs) (filePath : String)
    (content : List Nat) (info : ProviderInfo) (idx : VersionsIndex)
    (hno : NoSlashInfo info) :
    (pipelineResult cfg fs filePath content info idx).fs (TargetVersionsIndexPath info) =
      some (.versionsIndexFile (AddVersion idx info.version info.os info.arch)) := by
  have hsig : TargetVersionsIndexPath info ≠ TargetSigPath info :=
    ne_of_count _ _ 2 5 (indexPath_count info hno) (sigPath_count info hno) (by decide)
  have hdl : TargetVersionsIndexPath info ≠ TargetDownloadIndexPath info :=
    ne_of_count _ _ 2 5 (indexPath_count info hno) (downloadIndexPath_count info hno)
      (by decide)
  rcases pipelineResult_cases cfg fs filePath content info idx with
    ⟨e, hr⟩ | ⟨e, sb, hr⟩ | ⟨sb, d, hr⟩
  · rw [hr]
    exact fs3Of_index cfg fs filePath content info idx hno
  · rw [hr]
    show fsWrite _ _ _ _ = _
    rw [fsWrite_other _ _ _ _ hsig]
    exact fs3Of_index cfg fs filePath content info idx hno
  · rw [hr]
    show fsWrite _ _ _ _ = _
    rw [fsWrite_other _ _ _ _ hdl, fsWrite_other _ _ _ _ hsig]
    exact fs3Of_index cfg fs filePath content info idx hno

theorem pipelineResult_fs_untouched (cfg : BuildConfig) (fs : Fs) (filePath : String)
    (content : List Nat) (info : ProviderInfo) (idx : VersionsIndex) (q : String)
    (hzip : q ≠ TargetZipPath info) (hidx : q ≠ TargetVersionsIndexPath info)
    (hsha : q ≠ TargetSHASumsPath info) (hsig : q ≠ TargetSigPath info)
    (hdl : q ≠ TargetDownloadIndexPath info) :
    (pipelineResult cfg fs filePath content info idx).fs q = fs q := by
  have h3 : fs3Of cfg fs filePath content info idx q = fs q := by
    rw [fs3Of, fsWrite_other _ _ _ _ hsha, fs2Of, fsWrite_other _ _ _ _ hidx,
      fs1Of, fsWrite_other _ _ _ _ hzip]
  rcases pipelineResult_cases cfg fs filePath content info idx with
    ⟨e, hr⟩ | ⟨e, sb, hr⟩ | ⟨sb, d, hr⟩
  · rw [hr]
    exact h3
  · rw [hr]
    show fsWrite _ _ _ _ = _
    rw [fsWrite_other _ _ _ _ hsig]
    exact h3
  · rw [hr]
    show fsWrite _ _ _ _ = _
    rw [fsWrite_other _ _ _ _ hdl, fsWrite_other _ _ _ _ hsig]
    exact h3

theorem IndexWF_fsWrite_nonindex (fs : Fs) (p : String) (d : FileData)
    (hwf : IndexWF fs) (hd : ∀ i, d ≠ .versionsIndexFile i) : IndexWF (fsWrite fs p d) := by
  intro q i hq
  by_cases hqp : q = p
  · subst hqp
    rw [fsWrite_same] at hq
    exact absurd (Option.some.inj hq) (hd i)
  · rw [fsWrite_other _ _ _ _ hqp] at hq
    exact hwf q i hq

theorem IndexWF_fsWrite_index (fs : Fs) (p : String) (idx : VersionsIndex)
    (hwf : IndexWF fs) (hs : strictlySorted idx.versions) :
    IndexWF (fsWrite fs p (.versionsIndexFile idx)) := by
  intro q i hq
  by_cases hqp : q = p
  · subst hqp
    rw [fsWrite_same] at hq
    have : FileData.versionsIndexFile idx = FileData.versionsIndexFile i := Option.some.inj hq
    simp only [FileData.versionsIndexFile.injEq] at this
    rw [← this]
    exact hs
  · rw [fsWrite_other _ _ _ _ hqp] at hq
    exact hwf q i hq

theorem pipelineResult_IndexWF (cfg : BuildConfig) (fs : Fs) (filePath : String)
    (content : List Nat) (info : ProviderInfo) (idx : VersionsIndex)
    (hwf : IndexWF fs) (hidx : strictlySorted idx.versions) :
    IndexWF (pipelineResult cfg fs filePath content info idx).fs := by
  have h3 : IndexWF (fs3Of cfg fs filePath content info idx) := by
    rw [fs3Of, fs2Of, fs1Of]
    apply IndexWF_fsWrite_nonindex _ _ _ _ (by intro i; simp)
    apply IndexWF_fsWrite_index _ _ _ _ (AddVersion_strict idx _ _ _ hidx)
    exact IndexWF_fsWrite_nonindex _ _ _ hwf (zipDataOf_nonindex filePath content info)
  rcases pipelineResult_cases cfg fs filePath content info idx with
    ⟨e, hr⟩ | ⟨e, sb, hr⟩ | ⟨sb, d, hr⟩
  · rw [hr]
    exact h3
  · rw [hr]
    exact IndexWF_fsWrite_nonindex _ _ _ h3 (by intro i; simp)
  · rw [hr]
    apply IndexWF_fsWrite_nonindex _ _ _ _ (by intro i; simp)
    exact IndexWF_fsWrite_nonindex _ _ _ h3 (by intro i; simp)

theorem processProviderFile_IndexWF (cfg : BuildConfig) (fs : Fs) (path : String)
    (content : List Nat) (hwf : IndexWF fs) :
    IndexWF (processProviderFile cfg fs path content).fs := by
  rcases processProviderFile_cases cfg fs path content with
    ⟨e, hr⟩ | ⟨hr, _⟩ | ⟨info, idx, hp, hre, hg, hr⟩
  · rw [hr]
    exact hwf
  · rw [hr]
    exact hwf
  · rw [hr]
    exact pipelineResult_IndexWF cfg fs path content info idx hwf
      (ReadVersionsIndex_strict fs _ _ idx hwf hre)

theorem gate_true_stored (fs : Fs) (info : ProviderInfo) (idx : VersionsIndex)
    (hre : ReadVersionsIndex fs (TargetVersionsIndexPath info) info.type = .ok idx)
    (hg : versionPlatformExists idx info.version info.os info.arch = true) :
    TriplePresent fs info := by
  unfold ReadVersionsIndex at hre
  cases hp : fs (TargetVersionsIndexPath info) with
  | none =>
    rw [hp] at hre
    simp only [Except.ok.injEq] at hre
    rw [← hre] at hg
    simp [versionPlatformExists, List.find?] at hg
  | some d =>
    rw [hp] at hre
    cases d with
    | rawBytes bs =>
      cases bs with
      | nil =>
        simp only [Except.ok.injEq] at hre
        rw [← hre] at hg
        simp [versionPlatformExists, List.find?] at hg
      | cons b bs' => simp at hre
    | versionsIndexFile i =>
      simp only [Except.ok.injEq] at hre
      exact ⟨i, hp, hre ▸ hg⟩
    | zipArchive es => simp at hre
    | shaSums t => simp at hre
    | signatureBytes bs => simp at hre
    | downloadIndexFile dd => simp at hre

theorem stored_read (fs : Fs) (info : ProviderInfo) (idx : VersionsIndex)
    (hp : fs (TargetVersionsIndexPath info) = some (.versionsIndexFile idx)) :
    ReadVersionsIndex fs (TargetVersionsIndexPath info) info.type = .ok idx := by
  unfold ReadVersionsIndex
  rw [hp]

theorem processProviderFile_skip_of_triple (cfg : BuildConfig) (fs : Fs) (path : String)
    (content : List Nat) (info : ProviderInfo)
    (hp : ParseProviderFileName path = some info) (ht : TriplePresent fs info) :
    processProviderFile cfg fs path content = ⟨none, true, fs, []⟩ := by
  obtain ⟨idx, hfs, hvpe⟩ := ht
  unfold processProviderFile
  rw [hp]
  dsimp only
  rw [stored_read fs info idx hfs]
  dsimp only
  rw [if_pos hvpe]

theorem processProviderFile_triple_self (cfg : BuildConfig) (fs : Fs) (path : String)
    (content : List Nat) (info : ProviderInfo)
    (hp : ParseProviderFileName path = some info) (hwf : IndexWF fs)
    (hok : (processProviderFile cfg fs path content).err = none) :
    TriplePresent (processProviderFile cfg fs path content).fs info := by
  rcases processProviderFile_cases cfg fs path content with
    ⟨e, hr⟩ | ⟨hr, info', idx, hp', hre, hg⟩ | ⟨info', idx, hp', hre, hg, hr⟩
  · rw [hr] at hok
    simp at hok
  · have hii : info' = info := by
      rw [hp] at hp'
      exact (Option.some.inj hp').symm
    subst hii
    rw [hr]
    exact gate_true_stored fs info' idx hre hg
  · have hii : info' = info := by
      rw [hp] at hp'
      exact (Option.some.inj hp').symm
    subst hii
    rw [hr]
    have hno := (parse_info path info' hp).2
    refine ⟨AddVersion idx info'.version info'.os info'.arch, ?_, ?_⟩
    · exact pipelineResult_fs_index cfg fs path content info' idx hno
    · exact AddVersion_mem idx _ _ _ (ReadVersionsIndex_strict fs _ _ idx hwf hre)

theorem processProviderFile_triple_preserved (cfg : BuildConfig) (fs : Fs) (path : String)
    (content : List Nat) (info₀ : ProviderInfo)
    (hwf : IndexWF fs) (hno₀ : NoSlashInfo info₀)
    (ht : TriplePresent fs info₀) :
    TriplePresent (processProviderFile cfg fs path content).fs info₀ := by
  rcases processProviderFile_cases cfg fs path content with
    ⟨e, hr⟩ | ⟨hr, _⟩ | ⟨info, idx, hp, hre, hg, hr⟩
  · rw [hr]
    exact ht
  · rw [hr]
    exact ht
  · rw [hr]
    obtain ⟨idx₀, hfs₀, hvpe₀⟩ := ht
    have hno := (parse_info path info hp).2
    by_cases hpe : TargetVersionsIndexPath info₀ = TargetVersionsIndexPath info
    · have hre' : ReadVersionsIndex fs (TargetVersionsIndexPath info) info.type =
          .ok idx₀ := by
        rw [← hpe]
        unfold ReadVersionsIndex
        rw [hfs₀]
      have hidx : idx = idx₀ := by
        rw [hre'] at hre
        exact Option.some.inj (congrArg (fun x => x.toOption) hre) |>.symm
      subst hidx
      refine ⟨AddVersion idx info.version info.os info.arch, ?_, ?_⟩
      · rw [hpe]
        exact pipelineResult_fs_index cfg fs path content info idx hno
      · exact AddVersion_preserves idx info₀.version info₀.os info₀.arch _ _ _
          (hwf _ idx (hpe ▸ hfs₀)) hvpe₀
    · refine ⟨idx₀, ?_, hvpe₀⟩
      rw [pipelineResult_fs_untouched cfg fs path content info idx _
        (ne_of_count _ _ 2 5 (indexPath_count info₀ hno₀) (zipPath_count info hno)
          (by decide))
        hpe
        (ne_of_count _ _ 2 5 (indexPath_count info₀ hno₀) (shaPath_count info hno)
          (by decide))
        (ne_of_count _ _ 2 5 (indexPath_count info₀ hno₀) (sigPath_count info hno)
          (by decide))
        (ne_of_count _ _ 2 5 (indexPath_count info₀ hno₀)
          (downloadIndexPath_count info hno) (by decide))]
      exact hfs₀

theorem runFiles_cons_none (cfg : BuildConfig) (fs : Fs) (p : String) (c : List Nat)
    (rest : List (String × List Nat))
    (h : (processProviderFile cfg fs p c).err = none) :
    runFiles cfg fs ((p, c) :: rest) =
      runFiles cfg (processProviderFile cfg fs p c).fs rest := by
  rw [runFiles]
  rw [h]

theorem runFiles_cons_some (cfg : BuildConfig) (fs : Fs) (p : String) (c : List Nat)
    (rest : List (String × List Nat)) (e : String)
    (h : (processProviderFile cfg fs p c).err = some e) :
    runFiles cfg fs ((p, c) :: rest) = ⟨some e, (processProviderFile cfg fs p c).fs⟩ := by
  rw [runFiles]
  rw [h]

theorem runFiles_triple_preserved (cfg : BuildConfig) :
    ∀ (files : List (String × List Nat)) (fs : Fs) (info₀ : ProviderInfo),
    IndexWF fs → NoSlashInfo info₀ → TriplePresent fs info₀ →
    TriplePresent (runFiles cfg fs files).fs info₀ := by
  intro files
  induction files with
  | nil =>
    intro fs info₀ _ _ ht
    exact ht
  | cons pc rest ih =>
    intro fs info₀ hwf hno₀ ht
    obtain ⟨p, c⟩ := pc
    have hstep := processProviderFile_triple_preserved cfg fs p c info₀ hwf hno₀ ht
    have hwf' := processProviderFile_IndexWF cfg fs p c hwf
    cases herr : (processProviderFile cfg fs p c).err with
    | some e =>
      rw [runFiles_cons_some cfg fs p c rest e herr]
      exact hstep
    | none =>
      rw [runFiles_cons_none cfg fs p c rest herr]
      exact ih _ info₀ hwf' hno₀ hstep

theorem runFiles_ok_invariants (cfg : BuildConfig) :
    ∀ (files : List (String × List Nat)) (fs : Fs), IndexWF fs →
    (runFiles cfg fs files).err = none →
    IndexWF (runFiles cfg fs files).fs ∧
    ∀ pc ∈ files, ∃ info, ParseProviderFileName pc.1 = some info ∧
      TriplePresent (runFiles cfg fs files).fs info := by
  intro files
  induction files with
  | nil =>
    intro fs hwf _
    exact ⟨hwf, by simp⟩
  | cons pc rest ih =>
    intro fs hwf hok
    obtain ⟨p, c⟩ := pc
    cases herr : (processProviderFile cfg fs p c).err with
    | some e =>
      rw [runFiles_cons_some cfg fs p c rest e herr] at hok
      simp at hok
    | none =>
      have hwf' := processProviderFile_IndexWF cfg fs p c hwf
      rw [runFiles_cons_none cfg fs p c rest herr] at hok ⊢
      obtain ⟨hwfF, htriples⟩ := ih _ hwf' hok
      refine ⟨hwfF, ?_⟩
      have hparse : ∃ info, ParseProviderFileName p = some info := by
        rcases processProviderFile_cases cfg fs p c with
          ⟨e, hr⟩ | ⟨_, info, idx, hp', _, _⟩ | ⟨info, idx, hp', _, _, _⟩
        · rw [hr] at herr
          simp at herr
        · exact ⟨info, hp'⟩
        · exact ⟨info, hp'⟩
      obtain ⟨info, hp⟩ := hparse
      have hself := processProviderFile_triple_self cfg fs p c info hp hwf (by rw [herr])
      have hno := (parse_info p info hp).2
      intro pc hpc
      rcases List.mem_cons.mp hpc with hpc | hpc
      · subst hpc
        exact ⟨info, hp, runFiles_triple_preserved cfg rest _ info hwf' hno hself⟩
      · exact htriples pc hpc

theorem runFiles_all_skip (cfg : BuildConfig) :
    ∀ (files : List (String × List Nat)) (fs : Fs),
    (∀ pc ∈ files, ∃ info, ParseProviderFileName pc.1 = some info ∧ TriplePresent fs info) →
    runFiles cfg fs files = ⟨none, fs⟩ := by
  intro files
  induction files with
  | nil =>
    intro fs _
    rfl
  | cons pc rest ih =>
    intro fs h
    obtain ⟨p, c⟩ := pc
    obtain ⟨info, hp, ht⟩ := h (p, c) (List.mem_cons_self _ _)
    have hskip := processProviderFile_skip_of_triple cfg fs p c info hp ht
    rw [runFiles_cons_none cfg fs p c rest (by rw [hskip])]
    rw [hskip]
    exact ih fs fun pc hpc => h pc (List.mem_cons_of_mem _ hpc)

/-- Claim C1: running the build a second time over a source tree with the
same candidate file names (their byte contents may differ) leaves the whole
destination filesystem byte-identical and succeeds, provided the first run
succeeded and every pre-existing index file satisfies the data-model
invariant; and the idempotence gate skips any artifact whose (version, os,
arch) triple is already recorded, before any write happens (the result is
the unchanged filesystem with an empty write trace). -/
theorem c1_build_idempotent (cfg cfg₂ : BuildConfig) (fs : Fs)
    (srcDir srcDir₂ : String) (tree tree₂ : List SrcEntry)
    (hwf : IndexWF fs)
    (hnames : (flattenEntries srcDir₂ tree₂).map Prod.fst =
      (flattenEntries srcDir tree).map Prod.fst)
    (hok : (Build cfg fs srcDir tree).err = none) :
    (Build cfg₂ (Build cfg fs srcDir tree).fs srcDir₂ tree₂ =
      ⟨none, (Build cfg fs srcDir tree).fs⟩) ∧
    (∀ (cfg' : BuildConfig) (fs' : Fs) (path : String) (content : List Nat)
        (info : ProviderInfo),
      ParseProviderFileName path = some info → TriplePresent fs' info →
      processProviderFile cfg' fs' path content = ⟨none, true, fs', []⟩) := by
  constructor
  · rw [Build] at hok
    obtain ⟨hwfF, htr⟩ := runFiles_ok_invariants cfg (flattenEntries srcDir tree) fs hwf hok
    rw [Build, Build]
    apply runFiles_all_skip
    intro pc hpc
    have hmem : pc.1 ∈ (flattenEntries srcDir tree).map Prod.fst := by
      rw [← hnames]
      exact List.mem_map_of_mem _ hpc
    obtain ⟨pc₁, hpc₁, heq⟩ := List.mem_map.mp hmem
    obtain ⟨info, hp, ht⟩ := htr pc₁ hpc₁
    exact ⟨info, heq ▸ hp, ht⟩
  · intro cfg' fs' path content info hp ht
    exact processProviderFile_skip_of_triple cfg' fs' path content info hp ht

theorem c1_build_idempotent_witness :
    (Build cfgDemo (Build cfgDemo fsEmpty "src" treeOne).fs "src" treeOneChanged =
      ⟨none, (Build cfgDemo fsEmpty "src" treeOne).fs⟩) ∧
    (∀ (cfg' : BuildConfig) (fs' : Fs) (path : String) (content : List Nat)
        (info : ProviderInfo),
      ParseProviderFileName path = some info → TriplePresent fs' info →
      processProviderFile cfg' fs' path content = ⟨none, true, fs', []⟩) :=
  c1_build_idempotent cfgDemo cfgDemo fsEmpty "src" "src" treeOne treeOneChanged
    (fun p idx h => nomatch h) (by decide) (by decide)

/-- Claim C4: for every artifact that passes the idempotence gate, the write
effects of processProviderFile are an in-order prefix of: package the
archive, persist the merged versions index, write the checksum manifest,
write the signature, write the download manifest; the full sequence happens
exactly on success, a skipped artifact has no effects, any failure stops
before the download manifest, and a download manifest in the trace implies
the whole pipeline (checksum manifest and signature included) succeeded, so
a Signer failure never leaves a partially written download manifest. -/
theorem c4_effect_order (cfg : BuildConfig) (fs : Fs) (path : String)
    (content : List Nat) (info : ProviderInfo)
    (hp : ParseProviderFileName path = some info) :
    ∃ k, k ≤ 5 ∧
      (processProviderFile cfg fs path content).trace = (fullTrace info).take k ∧
      ((processProviderFile cfg fs path content).err = none ∧
        (processProviderFile cfg fs path content).skipped = false → k = 5) ∧
      ((processProviderFile cfg fs path content).skipped = true → k = 0) ∧
      ((processProviderFile cfg fs path content).err.isSome = true → k ≤ 4) ∧
      (Effect.writeDownloadIndex (TargetDownloadIndexPath info) ∈
          (processProviderFile cfg fs path content).trace →
        (processProviderFile cfg fs path content).err = none) := by
  rcases processProviderFile_cases cfg fs path content with
    ⟨e, hr⟩ | ⟨hr, _⟩ | ⟨info', idx, hp', hre, hg, hr⟩
  · refine ⟨0, by omega, ?_, ?_, ?_, ?_, ?_⟩ <;> rw [hr] <;> simp
  · refine ⟨0, by omega, ?_, ?_, ?_, ?_, ?_⟩ <;> rw [hr] <;> simp
  · have hii : info' = info := by
      rw [hp] at hp'
      exact (Option.some.inj hp').symm
    subst hii
    rcases pipelineResult_cases cfg fs path content info' idx with
      ⟨e, hpr⟩ | ⟨e, sb, hpr⟩ | ⟨sb, d, hpr⟩
    · refine ⟨3, by omega, ?_, ?_, ?_, ?_, ?_⟩ <;> rw [hr, hpr] <;> simp [fullTrace]
    · refine ⟨4, by omega, ?_, ?_, ?_, ?_, ?_⟩ <;> rw [hr, hpr] <;> simp [fullTrace]
    · refine ⟨5, by omega, ?_, ?_, ?_, ?_, ?_⟩ <;> rw [hr, hpr] <;> simp [fullTrace]

theorem c4_effect_order_witness :
    ∃ k, k ≤ 5 ∧
      (processProviderFile cfgDemo fsEmpty "terraform-provider-test_v1.0.0_linux_amd64"
        [1]).trace = (fullTrace ⟨"test", "1.0.0", "linux", "amd64", ""⟩).take k ∧
      ((processProviderFile cfgDemo fsEmpty "terraform-provider-test_v1.0.0_linux_amd64"
          [1]).err = none ∧
        (processProviderFile cfgDemo fsEmpty "terraform-provider-test_v1.0.0_linux_amd64"
          [1]).skipped = false → k = 5) ∧
      ((processProviderFile cfgDemo fsEmpty "terraform-provider-test_v1.0.0_linux_amd64"
          [1]).skipped = true → k = 0) ∧
      ((processProviderFile cfgDemo fsEmpty "terraform-provider-test_v1.0.0_linux_amd64"
          [1]).err.isSome = true → k ≤ 4) ∧
      (Effect.writeDownloadIndex
          (TargetDownloadIndexPath ⟨"test", "1.0.0", "linux", "amd64", ""⟩) ∈
          (processProviderFile cfgDemo fsEmpty "terraform-provider-test_v1.0.0_linux_amd64"
            [1]).trace →
        (processProviderFile cfgDemo fsEmpty "terraform-provider-test_v1.0.0_linux_amd64"
          [1]).err = none) :=
  c4_effect_order cfgDemo fsEmpty "terraform-provider-test_v1.0.0_linux_amd64" [1]
    ⟨"test", "1.0.0", "linux", "amd64", ""⟩ (by decide)

/-- Claim C10: if processing an artifact fails after its versions-index merge
was persisted but before the signature and download manifest were written
(here: the Signer fails to produce its key or the signature), the error is
surfaced, the signature and download-manifest paths keep their previous
contents, the merged (version, os, arch) triple is recorded in the persisted
index, and every subsequent run of the per-file pipeline over the resulting
filesystem skips this artifact at the idempotence gate with no writes at all,
so the missing files are never created by later runs. -/
theorem c10_failed_artifact_frozen (cfg : BuildConfig) (fs : Fs) (path : String)
    (content : List Nat) (info : ProviderInfo) (idx : VersionsIndex)
    (hp : ParseProviderFileName path = some info)
    (hwf : IndexWF fs)
    (hre : ReadVersionsIndex fs (TargetVersionsIndexPath info) info.type = .ok idx)
    (hg : versionPlatformExists idx info.version info.os info.arch = false)
    (hsig : (∃ e, cfg.signer.keyResult = .error e) ∨
      (∃ e, cfg.signer.sign (shaTextOf cfg path content info) = .error e)) :
    ((processProviderFile cfg fs path content).err.isSome = true) ∧
    ((processProviderFile cfg fs path content).fs (TargetSigPath info) =
      fs (TargetSigPath info)) ∧
    ((processProviderFile cfg fs path content).fs (TargetDownloadIndexPath info) =
      fs (TargetDownloadIndexPath info)) ∧
    TriplePresent (processProviderFile cfg fs path content).fs info ∧
    (∀ (cfg₂ : BuildConfig) (content₂ : List Nat),
      processProviderFile cfg₂ (processProviderFile cfg fs path content).fs path content₂ =
        ⟨none, true, (processProviderFile cfg fs path content).fs, []⟩) := by
  have hno := (parse_info path info hp).2
  have hr : processProviderFile cfg fs path content =
      pipelineResult cfg fs path content info idx := by
    unfold processProviderFile
    rw [hp]
    dsimp only
    rw [hre]
    dsimp only
    rw [if_neg (by simp [hg])]
  obtain ⟨e2, hpr⟩ : ∃ e2, pipelineResult cfg fs path content info idx =
      ⟨some e2, false, fs3Of cfg fs path content info idx,
       [.writeZip (TargetZipPath info),
        .writeVersionsIndex (TargetVersionsIndexPath info),
        .writeShaSums (TargetSHASumsPath info)]⟩ := by
    unfold pipelineResult
    rcases hsig with ⟨e, he⟩ | ⟨e, he⟩
    · rw [he]
      exact ⟨_, rfl⟩
    · cases hk : cfg.signer.keyResult with
      | error e3 => exact ⟨_, rfl⟩
      | ok keyId =>
        rw [he]
        exact ⟨_, rfl⟩
  have hsig_sha : TargetSigPath info ≠ TargetSHASumsPath info :=
    ne_of_last _ _ 'g' 'S' (sigPath_last info) (shaPath_last info) (by decide)
  have hsig_idx : TargetSigPath info ≠ TargetVersionsIndexPath info :=
    ne_of_count _ _ 5 2 (sigPath_count info hno) (indexPath_count info hno) (by decide)
  have hsig_zip : TargetSigPath info ≠ TargetZipPath info :=
    ne_of_last _ _ 'g' 'p' (sigPath_last info) (zipPath_last info) (by decide)
  have hdl_sha : TargetDownloadIndexPath info ≠ TargetSHASumsPath info :=
    ne_of_last _ _ 'n' 'S' (downloadIndexPath_last info) (shaPath_last info) (by decide)
  have hdl_idx : TargetDownloadIndexPath info ≠ TargetVersionsIndexPath info :=
    ne_of_count _ _ 5 2 (downloadIndexPath_count info hno) (indexPath_count info hno)
      (by decide)
  have hdl_zip : TargetDownloadIndexPath info ≠ TargetZipPath info :=
    ne_of_last _ _ 'n' 'p' (downloadIndexPath_last info) (zipPath_last info) (by decide)
  have hfs3sig : fs3Of cfg fs path content info idx (TargetSigPath info) =
      fs (TargetSigPath info) := by
    rw [fs3Of, fsWrite_other _ _ _ _ hsig_sha, fs2Of,
      fsWrite_other _ _ _ _ hsig_idx, fs1Of, fsWrite_other _ _ _ _ hsig_zip]
  have hfs3dl : fs3Of cfg fs path content info idx (TargetDownloadIndexPath info) =
      fs (TargetDownloadIndexPath info) := by
    rw [fs3Of, fsWrite_other _ _ _ _ hdl_sha, fs2Of,
      fsWrite_other _ _ _ _ hdl_idx, fs1Of, fsWrite_other _ _ _ _ hdl_zip]
  have htp : TriplePresent (fs3Of cfg fs path content info idx) info :=
    ⟨AddVersion idx info.version info.os info.arch,
     fs3Of_index cfg fs path content info idx hno,
     AddVersion_mem idx info.version info.os info.arch
       (ReadVersionsIndex_strict fs (TargetVersionsIndexPath info) info.type idx hwf hre)⟩
  refine ⟨?_, ?_, ?_, ?_, ?_⟩
  · rw [hr, hpr]
    rfl
  · rw [hr, hpr]
    exact hfs3sig
  · rw [hr, hpr]
    exact hfs3dl
  · rw [hr, hpr]
    exact htp
  · intro cfg₂ content₂
    rw [hr, hpr]
    exact processProviderFile_skip_of_triple cfg₂ _ path content₂ info hp htp

theorem c10_failed_artifact_frozen_witness :
    ((processProviderFile cfgDemoBadSigner fsEmpty
        "terraform-provider-frozen_v1.0.0_linux_amd64" [1]).err.isSome = true) ∧
    ((processProviderFile cfgDemoBadSigner fsEmpty
        "terraform-provider-frozen_v1.0.0_linux_amd64" [1]).fs
      (TargetSigPath ⟨"frozen", "1.0.0", "linux", "amd64", ""⟩) =
      fsEmpty (TargetSigPath ⟨"frozen", "1.0.0", "linux", "amd64", ""⟩)) ∧
    ((processProviderFile cfgDemoBadSigner fsEmpty
        "terraform-provider-frozen_v1.0.0_linux_amd64" [1]).fs
      (TargetDownloadIndexPath ⟨"frozen", "1.0.0", "linux", "amd64", ""⟩) =
      fsEmpty (TargetDownloadIndexPath ⟨"frozen", "1.0.0", "linux", "amd64", ""⟩)) ∧
    TriplePresent (processProviderFile cfgDemoBadSigner fsEmpty
        "terraform-provider-frozen_v1.0.0_linux_amd64" [1]).fs
      ⟨"frozen", "1.0.0", "linux", "amd64", ""⟩ ∧
    (∀ (cfg₂ : BuildConfig) (content₂ : List Nat),
      processProviderFile cfg₂ (processProviderFile cfgDemoBadSigner fsEmpty
          "terraform-provider-frozen_v1.0.0_linux_amd64" [1]).fs
        "terraform-provider-frozen_v1.0.0_linux_amd64" content₂ =
        ⟨none, true, (processProviderFile cfgDemoBadSigner fsEmpty
          "terraform-provider-frozen_v1.0.0_linux_amd64" [1]).fs, []⟩) :=
  c10_failed_artifact_frozen cfgDemoBadSigner fsEmpty
    "terraform-provider-frozen_v1.0.0_linux_amd64" [1]
    ⟨"frozen", "1.0.0", "linux", "amd64", ""⟩ ⟨"frozen", [], []⟩
    (by decide) (fun p idx h => nomatch h) rfl (by decide)
    (Or.inr ⟨"gpg: no key", rfl⟩)

/-- Claim C6 counterexample: the original claim is false on the code.  With a
source tree whose first candidate file has an unparseable name and whose
second candidate is well-formed, the build surfaces the first error and the
walk never reaches the second candidate: its archive is absent from the
destination filesystem. -/
theorem c6_counterexample :
    (Build cfgDemo fsEmpty "src" treeBadGood).err.isSome = true ∧
    (Build cfgDemo fsEmpty "src" treeBadGood).fs
      (TargetZipPath ⟨"good", "1.0.0", "linux", "amd64", ""⟩) = none := by
  exact ⟨by decide, by decide⟩

/-- Claim C6 (amended): a failure while processing one candidate file stops
the orchestrator's walk immediately: the error becomes the result of the
whole walk, and the remaining candidate files are not processed — the
filesystem stays exactly as the failing file left it. -/
theorem c6_walk_stops (cfg : BuildConfig) (fs : Fs) (p : String) (c : List Nat)
    (rest : List (String × List Nat)) (e : String)
    (h : (processProviderFile cfg fs p c).err = some e) :
    runFiles cfg fs ((p, c) :: rest) = ⟨some e, (processProviderFile cfg fs p c).fs⟩ := by
  rw [runFiles]
  rw [h]

theorem c6_walk_stops_witness :
    runFiles cfgDemo fsEmpty
      [("src/terraform-provider-bad", [1]),
       ("src/terraform-provider-good_v1.0.0_linux_amd64", [2])] =
      ⟨some "failed to parse provider file name src/terraform-provider-bad",
       (processProviderFile cfgDemo fsEmpty "src/terraform-provider-bad" [1]).fs⟩ :=
  c6_walk_stops cfgDemo fsEmpty "src/terraform-provider-bad" [1]
    [("src/terraform-provider-good_v1.0.0_linux_amd64", [2])]
    "failed to parse provider file name src/terraform-provider-bad" (by decide)

end TRB
